import Mathlib

/-!
ALSA FIFO plugin (`pcm_fifo.c`): transfer engine, lifecycle callbacks, capability
declaration and construction entry point.

A shallow embedding of the functions of `pcm_fifo.c`.

Modelling conventions.

* `snd_pcm_uframes_t` values (`appl_ptr`, `hw_ptr`, `buffer_size`, `avail`) are
  natural numbers; arithmetic the source performs in that type is reduced modulo
  `2 ^ w`, where `w` is the width in bits of `snd_pcm_uframes_t` / `snd_pcm_sframes_t`
  (the typedefs live in the ALSA headers, so `w` is a parameter).
* `fifo->ptr` is a signed frame count which the code only ever sets to `0`,
  increases by a positive `result`, or reduces modulo `buffer_size`; it is modelled
  by its (non-negative) value.
* The locals `offset`, `cont`, `frames` and the byte count are modelled by their values:
  the capability declaration caps the buffer at 4 MiB, far below `2 ^ 31`.
* In the configuration loop and the capability declaration the conversions between
  `long`, `int` and `unsigned int` are explicit (`to_int`, `to_uint`).
* The guard constant `(1 << (sizeof(snd_pcm_sframes_t) * 8 - 2))` is an expression of
  type `int`; the transfer functions take the value it evaluates to as the parameter
  `thr`, and `ptr_guard` models the expression itself.
* `read`/`write` on the descriptor are the environment: `ep i n` is the value returned
  by the `i`-th call made on the descriptor when it is asked for `n` bytes.
* Division by zero (`buffer_size = 0`, or a zero frame size with a positive byte
  count returned) ends the run with `Exit.fault`; a loop that has not exited after
  `fuel` iterations ends with `Exit.fuel`.
-/

namespace PcmFifo

/-! ## Data model -/

/-- The fields of `snd_pcm_ioplug_t` read by the callbacks. -/
structure Ioplug where
  appl_ptr : Nat
  hw_ptr : Nat
  buffer_size : Nat
  channels : Nat
deriving DecidableEq, Repr

/-- The device instance `snd_pcm_fifo_t` (without the embedded `io`). -/
structure Fifo where
  fd : Int
  channels : Int
  rate : Int
  format : Int
  frame_bytes : Nat
  ptr : Nat
deriving DecidableEq, Repr

/-- One iteration of a transfer loop: what was asked of the descriptor and what it did. -/
structure Attempt where
  /-- Value of `fifo->ptr` when the iteration starts. -/
  ptr : Nat
  /-- Local `offset`. -/
  offset : Nat
  /-- Local `frames`: the chunk requested, in frames. -/
  frames : Nat
  /-- Byte count passed to `read`/`write`. -/
  count : Nat
  /-- Value returned by `read`/`write`. -/
  ret : Int
  /-- Value of `fifo->ptr` after `fifo->ptr += result` (unchanged when `ret <= 0`). -/
  ptr_add : Nat
  /-- Value of `fifo->ptr` when `result < frames` is tested. -/
  ptr_new : Nat
deriving DecidableEq, Repr

/-- How a run of a transfer function ended. -/
inductive Exit where
  /-- The function returned. -/
  | done
  /-- Integer division by zero. -/
  | fault
  /-- Still inside the loop after the allotted number of iterations. -/
  | fuel
deriving DecidableEq, Repr

/-- Outcome of one call of `fifo_read` / `fifo_write`. -/
structure Run where
  fifo : Fifo
  log : List Attempt
  exit : Exit
deriving DecidableEq, Repr

/-! ## C integer helpers -/

/-- Width of C `int` in bits. -/
def INT_BITS : Nat := 32

/-- Conversion to `snd_pcm_uframes_t` of width `w`: reduction modulo `2 ^ w`. -/
def to_uframes (w : Nat) (x : Int) : Nat := (x % ((2 ^ w : Nat) : Int)).toNat

/-- Conversion to `unsigned int`: reduction modulo `2 ^ 32`. -/
def to_uint (x : Int) : Int := x % ((2 ^ INT_BITS : Nat) : Int)

/-- Conversion to `int`: the value congruent modulo `2 ^ 32` that lies in
`[-2 ^ 31, 2 ^ 31)`. -/
def to_int (x : Int) : Int :=
  (x + ((2 ^ (INT_BITS - 1) : Nat) : Int)) % ((2 ^ INT_BITS : Nat) : Int)
    - ((2 ^ (INT_BITS - 1) : Nat) : Int)

/-- The shift `a << n` with `a` of type `int`: the result has type `int`, and the
expression has a value only when `a` is non-negative, `n` is below the width of `int`
and `a * 2 ^ n` is representable in `int`; `none` is undefined behaviour. -/
def int_shl (a : Int) (n : Nat) : Option Int :=
  if 0 ≤ a ∧ n < INT_BITS ∧ a * 2 ^ n < 2 ^ (INT_BITS - 1) then some (a * 2 ^ n) else none

/-- The guard constant `(1 << (sizeof(snd_pcm_sframes_t) * 8 - 2))` of lines 48 and 84,
for a platform where `sizeof(snd_pcm_sframes_t)` is `sizeof_sframes` bytes. -/
def ptr_guard (sizeof_sframes : Nat) : Option Int := int_shl 1 (sizeof_sframes * 8 - 2)

/-- The value of `result` when it is compared with `frames`: whole frames after a positive
return (`result /= frame_bytes * io->channels`), the raw return value otherwise. -/
def whole_frames (fsz : Nat) (ret : Int) : Int := if ret > 0 then ret / (fsz : Int) else ret

/-- Frames by which an attempt advanced the transfer: `result` after a positive return,
nothing otherwise. -/
def Attempt.xfer (fsz : Nat) (a : Attempt) : Nat :=
  if a.ret > 0 then (a.ret / (fsz : Int)).toNat else 0

/-! ## Transfer engine -/

/-- `avail` as `fifo_read` computes it on entry (line 32). -/
def fifo_read_avail (w : Nat) (plug : Ioplug) : Nat :=
  to_uframes w ((plug.appl_ptr : Int) - (plug.hw_ptr : Int) + (plug.buffer_size : Int))

/-- `avail` as `fifo_write` computes it on entry (line 69). -/
def fifo_write_avail (w : Nat) (plug : Ioplug) (fifo : Fifo) : Nat :=
  to_uframes w ((plug.appl_ptr : Int) - (fifo.ptr : Int))

/-- The `while (avail > 0)` loop of `fifo_read` (lines 34-61). `calls` is the number of
calls already made on the descriptor. -/
def fifo_read_loop (w : Nat) (thr : Int) (ep : Nat → Nat → Int) (plug : Ioplug) :
    Nat → Fifo → Nat → Nat → Run
  | 0, fifo, avail, _ => ⟨fifo, [], if avail > 0 then Exit.fuel else Exit.done⟩
  | n + 1, fifo, avail, calls =>
    if avail > 0 then
      if plug.buffer_size = 0 then ⟨fifo, [], Exit.fault⟩
      else
        let offset := fifo.ptr % plug.buffer_size
        let cont := plug.buffer_size - offset
        let frames := if avail > cont then cont else avail
        let count := frames * fifo.frame_bytes * plug.channels
        let result := ep calls count
        if result > 0 ∧ fifo.frame_bytes * plug.channels = 0 then
          ⟨fifo, [⟨fifo.ptr, offset, frames, count, result, fifo.ptr, fifo.ptr⟩], Exit.fault⟩
        else
          let res : Int :=
            if result > 0 then result / ((fifo.frame_bytes * plug.channels : Nat) : Int)
            else result
          let ptr1 : Nat := if result > 0 then fifo.ptr + res.toNat else fifo.ptr
          let ptr2 : Nat :=
            if result > 0 then
              (if (ptr1 : Int) > thr then ptr1 % plug.buffer_size else ptr1)
            else ptr1
          let att : Attempt := ⟨fifo.ptr, offset, frames, count, result, ptr1, ptr2⟩
          if res < (frames : Int) then ⟨{ fifo with ptr := ptr2 }, [att], Exit.done⟩
          else
            let r := fifo_read_loop w thr ep plug n { fifo with ptr := ptr2 }
              (to_uframes w ((avail : Int) - res)) (calls + 1)
            ⟨r.fifo, att :: r.log, r.exit⟩
    else ⟨fifo, [], Exit.done⟩

/-- `fifo_read` (lines 28-62). -/
def fifo_read (w : Nat) (thr : Int) (ep : Nat → Nat → Int) (fuel : Nat) (plug : Ioplug)
    (fifo : Fifo) (calls : Nat) : Run :=
  fifo_read_loop w thr ep plug fuel fifo (fifo_read_avail w plug) calls

/-- The `while (avail > 0)` loop of `fifo_write` (lines 71-97). -/
def fifo_write_loop (w : Nat) (thr : Int) (ep : Nat → Nat → Int) (plug : Ioplug) :
    Nat → Fifo → Nat → Nat → Run
  | 0, fifo, avail, _ => ⟨fifo, [], if avail > 0 then Exit.fuel else Exit.done⟩
  | n + 1, fifo, avail, calls =>
    if avail > 0 then
      if plug.buffer_size = 0 then ⟨fifo, [], Exit.fault⟩
      else
        let offset := fifo.ptr % plug.buffer_size
        let cont := plug.buffer_size - offset
        let frames := if avail > cont then cont else avail
        let count := frames * fifo.frame_bytes * plug.channels
        let result := ep calls count
        if result > 0 ∧ fifo.frame_bytes * plug.channels = 0 then
          ⟨fifo, [⟨fifo.ptr, offset, frames, count, result, fifo.ptr, fifo.ptr⟩], Exit.fault⟩
        else
          let res : Int :=
            if result > 0 then result / ((fifo.frame_bytes * plug.channels : Nat) : Int)
            else result
          let ptr1 : Nat := if result > 0 then fifo.ptr + res.toNat else fifo.ptr
          let ptr2 : Nat :=
            if result > 0 then
              (if (ptr1 : Int) > thr then ptr1 % plug.buffer_size else ptr1)
            else ptr1
          let att : Attempt := ⟨fifo.ptr, offset, frames, count, result, ptr1, ptr2⟩
          if res < (frames : Int) then ⟨{ fifo with ptr := ptr2 }, [att], Exit.done⟩
          else
            let r := fifo_write_loop w thr ep plug n { fifo with ptr := ptr2 }
              (to_uframes w ((avail : Int) - res)) (calls + 1)
            ⟨r.fifo, att :: r.log, r.exit⟩
    else ⟨fifo, [], Exit.done⟩

/-- `fifo_write` (lines 64-98). -/
def fifo_write (w : Nat) (thr : Int) (ep : Nat → Nat → Int) (fuel : Nat) (plug : Ioplug)
    (fifo : Fifo) (calls : Nat) : Run :=
  fifo_write_loop w thr ep plug fuel fifo (fifo_write_avail w plug fifo) calls

/-! ## Lifecycle callbacks -/

/-- `fifo_start` (lines 103-108): return value and the instance afterwards. -/
def fifo_start (fifo : Fifo) : Int × Fifo := (0, { fifo with ptr := 0 })

/-- `fifo_stop` (lines 110-113): return value and the instance afterwards. -/
def fifo_stop (fifo : Fifo) : Int × Fifo := (0, fifo)

/-- System calls issued on descriptors, in order. -/
inductive Syscall where
  | close (fd : Int)
deriving DecidableEq, Repr

/-- `fifo_close` (lines 118-124): return value, the instance afterwards, and the
system-call trace extended by what the callback issued. -/
def fifo_close (fifo : Fifo) (sys : List Syscall) : Int × Fifo × List Syscall :=
  (0, fifo, sys ++ [Syscall.close fifo.fd])

/-- `fifo_pointer` (lines 126-131). -/
def fifo_pointer (fifo : Fifo) : Int := (fifo.ptr : Int)

/-- `struct pollfd`. -/
structure Pollfd where
  fd : Int
  events : Nat
  revents : Nat
deriving DecidableEq, Repr

/-- Outcome of a readiness handler: the value stored through `revents`, the transfer it
ran, and its return value when the transfer returned. -/
structure PollResult where
  revents : Nat
  run : Run
  ret : Option Int
deriving DecidableEq, Repr

/-- `fifo_read_poll_revents` (lines 133-140); `none` when `pfds[0]` does not exist. -/
def fifo_read_poll_revents (w : Nat) (thr : Int) (ep : Nat → Nat → Int) (fuel : Nat)
    (plug : Ioplug) (fifo : Fifo) (calls : Nat) (pfds : List Pollfd) : Option PollResult :=
  match pfds with
  | [] => none
  | p :: _ =>
    let r := fifo_read w thr ep fuel plug fifo calls
    some ⟨p.revents, r, if r.exit = Exit.done then some 0 else none⟩

/-- `fifo_write_poll_revents` (lines 142-149); `none` when `pfds[0]` does not exist. -/
def fifo_write_poll_revents (w : Nat) (thr : Int) (ep : Nat → Nat → Int) (fuel : Nat)
    (plug : Ioplug) (fifo : Fifo) (calls : Nat) (pfds : List Pollfd) : Option PollResult :=
  match pfds with
  | [] => none
  | p :: _ =>
    let r := fifo_write w thr ep fuel plug fifo calls
    some ⟨p.revents, r, if r.exit = Exit.done then some 0 else none⟩

/-! ## The host: a stream as a sequence of readiness events -/

/-- One readiness event delivered by the host: which handler runs, the cursors the host
holds at that moment, and the iteration allowance of the run. -/
structure Invocation where
  playback : Bool
  appl_ptr : Nat
  hw_ptr : Nat
  fuel : Nat
deriving DecidableEq, Repr

/-- A device over time: the instance, the number of calls made on the descriptor,
the attempts of each invocation so far (oldest first), and how the latest one ended. -/
structure Dev where
  fifo : Fifo
  calls : Nat
  runs : List (List Attempt)
  exit : Exit
deriving DecidableEq, Repr

/-- The host delivers one readiness event to a device with capacity `C` and `ch` channels. -/
def invoke (w : Nat) (thr : Int) (ep : Nat → Nat → Int) (C ch : Nat) (v : Invocation)
    (d : Dev) : Dev :=
  let plug : Ioplug := ⟨v.appl_ptr, v.hw_ptr, C, ch⟩
  let r := if v.playback then fifo_write w thr ep v.fuel plug d.fifo d.calls
    else fifo_read w thr ep v.fuel plug d.fifo d.calls
  ⟨r.fifo, d.calls + r.log.length, d.runs ++ [r.log], r.exit⟩

/-- The host delivers a sequence of readiness events; a handler that did not return
(`Exit.fault`, `Exit.fuel`) is the last thing that happens. -/
def session (w : Nat) (thr : Int) (ep : Nat → Nat → Int) (C ch : Nat) :
    List Invocation → Dev → Dev
  | [], d => d
  | v :: vs, d =>
    let d1 := invoke w thr ep C ch v d
    if d1.exit = Exit.done then session w thr ep C ch vs d1 else d1

/-- A freshly started device: `fifo_start` has run and nothing was transferred yet. -/
def started (fifo : Fifo) (calls : Nat) : Dev := ⟨(fifo_start fifo).2, calls, [], Exit.done⟩

/-- All attempts of a device in the order they were made. -/
def Dev.trace (d : Dev) : List Attempt := d.runs.flatten

/-! ## One iteration, in closed form -/

/-- The chunk an iteration requests: `min avail (buffer_size - ptr % buffer_size)`. -/
def chunk (C ptr avail : Nat) : Nat := if avail > C - ptr % C then C - ptr % C else avail

/-- The overflow guard applied to a freshly advanced position. -/
def guarded (thr : Int) (C p : Nat) : Nat := if (p : Int) > thr then p % C else p

/-- The attempt an iteration makes from position `fifo.ptr` with `avail` frames to go,
as the `calls`-th call on the descriptor. -/
def next_attempt (thr : Int) (ep : Nat → Nat → Int) (plug : Ioplug) (fifo : Fifo)
    (avail calls : Nat) : Attempt :=
  let frames := chunk plug.buffer_size fifo.ptr avail
  let count := frames * fifo.frame_bytes * plug.channels
  let ret := ep calls count
  let adv : Nat := if ret > 0 then (ret / ((fifo.frame_bytes * plug.channels : Nat) : Int)).toNat else 0
  { ptr := fifo.ptr, offset := fifo.ptr % plug.buffer_size, frames := frames, count := count,
    ret := ret, ptr_add := fifo.ptr + adv,
    ptr_new := if ret > 0 then guarded thr plug.buffer_size (fifo.ptr + adv) else fifo.ptr }

/-- Whole frames transferred by a list of attempts. -/
def moved (fsz : Nat) (l : List Attempt) : Nat := (l.map (Attempt.xfer fsz)).sum

/-! ## Capability declaration -/

/-- The hardware parameters named in calls of `snd_pcm_ioplug_set_param_list` and
`snd_pcm_ioplug_set_param_minmax` (`SND_PCM_IOPLUG_HW_*`). -/
inductive HwParam where
  | ACCESS
  | FORMAT
  | CHANNELS
  | RATE
  | BUFFER_BYTES
  | PERIOD_BYTES
  | PERIODS
deriving DecidableEq, Repr

/-- `SND_PCM_ACCESS_MMAP_INTERLEAVED` of `snd_pcm_access_t`. -/
def SND_PCM_ACCESS_MMAP_INTERLEAVED : Int := 0

/-- `SND_PCM_ACCESS_RW_INTERLEAVED` of `snd_pcm_access_t`. -/
def SND_PCM_ACCESS_RW_INTERLEAVED : Int := 3

/-- One declaration made to the host. -/
inductive Decl where
  /-- `snd_pcm_ioplug_set_param_list(io, param, n, vals)`. -/
  | list (param : HwParam) (vals : List Int)
  /-- `snd_pcm_ioplug_set_param_minmax(io, param, min, max)`. -/
  | minmax (param : HwParam) (min max : Int)
deriving DecidableEq, Repr

/-- `fifo_hw_constraint` (lines 171-214). `host done d` is the status the host returns for
declaration `d` after the declarations `done`; the result is the return value and the
declarations made, in order. The host interface takes `unsigned int` values: the format is
stored in `unsigned int formats[]` and the channel count and rate are passed as
`unsigned int min, max`, so the `int` fields of the instance are converted. -/
def fifo_hw_constraint (host : List Decl → Decl → Int) (fifo : Fifo) : Int × List Decl :=
  let accesses : List Int := [SND_PCM_ACCESS_RW_INTERLEAVED, SND_PCM_ACCESS_MMAP_INTERLEAVED]
  let formats : List Int := [to_uint fifo.format]
  let d1 := Decl.list HwParam.ACCESS accesses
  let d2 := Decl.list HwParam.FORMAT formats
  let d3 := Decl.minmax HwParam.CHANNELS (to_uint fifo.channels) (to_uint fifo.channels)
  let d4 := Decl.minmax HwParam.RATE (to_uint fifo.rate) (to_uint fifo.rate)
  let d5 := Decl.minmax HwParam.BUFFER_BYTES 256 (4 * 1024 * 1024)
  let d6 := Decl.minmax HwParam.PERIOD_BYTES 128 (2 * 1024 * 1024)
  let d7 := Decl.minmax HwParam.PERIODS 3 1024
  if host [] d1 < 0 then (host [] d1, [d1])
  else if host [d1] d2 < 0 then (host [d1] d2, [d1, d2])
  else if host [d1, d2] d3 < 0 then (host [d1, d2] d3, [d1, d2, d3])
  else if host [d1, d2, d3] d4 < 0 then (host [d1, d2, d3] d4, [d1, d2, d3, d4])
  else if host [d1, d2, d3, d4] d5 < 0 then (host [d1, d2, d3, d4] d5, [d1, d2, d3, d4, d5])
  else if host [d1, d2, d3, d4, d5] d6 < 0 then
    (host [d1, d2, d3, d4, d5] d6, [d1, d2, d3, d4, d5, d6])
  else if host [d1, d2, d3, d4, d5, d6] d7 < 0 then
    (host [d1, d2, d3, d4, d5, d6] d7, [d1, d2, d3, d4, d5, d6, d7])
  else (0, [d1, d2, d3, d4, d5, d6, d7])

/-- The capability set as the specification words it: access modes
{RW_INTERLEAVED, MMAP_INTERLEAVED}, the configured format, channels and rate fixed at the
configured values, buffer bytes in [256, 4 Mi], period bytes in [128, 2 Mi], period count
in [3, 1024], in this order. -/
def declared_capabilities (fifo : Fifo) : List Decl :=
  [Decl.list HwParam.ACCESS [SND_PCM_ACCESS_RW_INTERLEAVED, SND_PCM_ACCESS_MMAP_INTERLEAVED],
   Decl.list HwParam.FORMAT [fifo.format],
   Decl.minmax HwParam.CHANNELS fifo.channels fifo.channels,
   Decl.minmax HwParam.RATE fifo.rate fifo.rate,
   Decl.minmax HwParam.BUFFER_BYTES 256 4194304,
   Decl.minmax HwParam.PERIOD_BYTES 128 2097152,
   Decl.minmax HwParam.PERIODS 3 1024]

/-- The capability set with the configured format, channel count and rate converted to
`unsigned int`, the type in which the host interface takes them. -/
def declared_capabilities_unsigned (fifo : Fifo) : List Decl :=
  declared_capabilities
    { fifo with format := to_uint fifo.format, channels := to_uint fifo.channels,
                rate := to_uint fifo.rate }

/-- Declaring a list of capabilities in order, as the specification words it: each
declaration is made after the previous one was accepted, and the first rejected one
(negative status) ends the negotiation with its status; 0 when all were accepted. -/
def declare_in_order (host : List Decl → Decl → Int) : List Decl → List Decl → Int × List Decl
  | done, [] => (0, done)
  | done, d :: ds =>
    if host done d < 0 then (host done d, done ++ [d])
    else declare_in_order host (done ++ [d]) ds

/-! ## Construction entry point -/

/-- `EINVAL` of `errno.h`. -/
def EINVAL : Int := 22

/-- `ENOMEM` of `errno.h`. -/
def ENOMEM : Int := 12

/-- `SND_PCM_FORMAT_S16_LE` of `snd_pcm_format_t`. -/
def SND_PCM_FORMAT_S16_LE : Int := 2

/-- `snd_pcm_stream_t`. -/
inductive PcmStream where
  | PLAYBACK
  | CAPTURE
deriving DecidableEq, Repr

/-- A configuration node, seen through the accessors the entry point uses:
`snd_config_get_id`, `snd_config_get_string` and `snd_config_get_integer`; `none` is a
negative return (for the latter two: the node has another type). -/
structure ConfNode where
  id : Option String
  string : Option String
  integer : Option Int
deriving DecidableEq, Repr

/-- The locals the configuration loop fills in. -/
structure Settings where
  file : Option String
  infile : Option String
  format : Int
  rate : Int
  channels : Int
deriving DecidableEq, Repr

/-- The `snd_config_for_each` loop of the entry point (lines 238-298); `format_value` is
`snd_pcm_format_value`. An early `return -EINVAL` is `Except.error`. The `long` read by
`snd_config_get_integer` is narrowed to `int` by `rate = val` and `channels = val`. -/
def fifo_conf (format_value : String → Int) : List ConfNode → Settings → Except Int Settings
  | [], s => Except.ok s
  | n :: rest, s =>
    match n.id with
    | none => fifo_conf format_value rest s
    | some id =>
      if id = "file" then
        match n.string with
        | none => Except.error (-EINVAL)
        | some v => fifo_conf format_value rest { s with file := some v }
      else if id = "infile" then
        match n.string with
        | none => Except.error (-EINVAL)
        | some v => fifo_conf format_value rest { s with infile := some v }
      else if id = "rate" then
        match n.integer with
        | none => Except.error (-EINVAL)
        | some val => fifo_conf format_value rest { s with rate := to_int val }
      else if id = "format" then
        match n.string with
        | none => Except.error (-EINVAL)
        | some str => fifo_conf format_value rest { s with format := format_value str }
      else if id = "channels" then
        match n.integer with
        | none => Except.error (-EINVAL)
        | some val => fifo_conf format_value rest { s with channels := to_int val }
      else fifo_conf format_value rest s

/-- What the entry point asks of its surroundings, in order. -/
inductive Effect where
  /-- `open(path, O_RDWR | O_NONBLOCK)`. -/
  | open_rdwr (path : String)
  /-- `calloc(1, sizeof(*fifo))`. -/
  | calloc
  /-- `snd_pcm_ioplug_create`. -/
  | ioplug_create
  /-- A declaration made by `fifo_hw_constraint`. -/
  | set_param (d : Decl)
  /-- `snd_pcm_ioplug_delete`. -/
  | ioplug_delete
  /-- `free(fifo)`. -/
  | free
deriving DecidableEq, Repr

/-- The surroundings of the entry point: the ALSA helpers, the file system, the allocator
and the host negotiation layer. -/
structure World where
  /-- `snd_pcm_format_value`. -/
  format_value : String → Int
  /-- `snd_pcm_format_width`. -/
  format_width : Int → Int
  /-- The descriptor (or -1) that `open(path, O_RDWR | O_NONBLOCK)` returns. -/
  open_fd : String → Int
  /-- Whether `calloc` succeeds. -/
  calloc_ok : Bool
  /-- Status returned by `snd_pcm_ioplug_create`. -/
  create_status : Int
  /-- Status returned by the host for a declaration, given the earlier ones. -/
  set_param : List Decl → Decl → Int

/-- The entry point `SND_PCM_PLUGIN_DEFINE_FUNC(fifo)` (lines 219-361): the status
returned, what it asked of its surroundings, and the instance handed to the host on
success. `frame_bytes` is `snd_pcm_format_width(format) / 8` stored in an `unsigned int`. -/
def snd_pcm_fifo_open (wd : World) (stream : PcmStream) (conf : List ConfNode) :
    Int × List Effect × Option Fifo :=
  match fifo_conf wd.format_value conf ⟨none, none, SND_PCM_FORMAT_S16_LE, 16000, 1⟩ with
  | Except.error e => (e, [], none)
  | Except.ok s =>
    match (if stream = PcmStream.PLAYBACK then s.file else s.infile) with
    | none => (-EINVAL, [], none)
    | some path =>
      if wd.open_fd path < 0 then (-EINVAL, [Effect.open_rdwr path], none)
      else if wd.calloc_ok = false then
        (-ENOMEM, [Effect.open_rdwr path, Effect.calloc], none)
      else
        let fifo : Fifo :=
          ⟨wd.open_fd path, s.channels, s.rate, s.format,
            ((Int.tdiv (wd.format_width s.format) 8) % ((2 ^ 32 : Nat) : Int)).toNat, 0⟩
        if wd.create_status < 0 then
          (wd.create_status,
            [Effect.open_rdwr path, Effect.calloc, Effect.ioplug_create, Effect.free], none)
        else if (fifo_hw_constraint wd.set_param fifo).1 < 0 then
          ((fifo_hw_constraint wd.set_param fifo).1,
            [Effect.open_rdwr path, Effect.calloc, Effect.ioplug_create]
              ++ (fifo_hw_constraint wd.set_param fifo).2.map Effect.set_param
              ++ [Effect.ioplug_delete, Effect.free], none)
        else
          (0, [Effect.open_rdwr path, Effect.calloc, Effect.ioplug_create]
              ++ (fifo_hw_constraint wd.set_param fifo).2.map Effect.set_param, some fifo)

/-- A `file`, `infile`, `rate`, `format` or `channels` node of the wrong type: the accessor
for the type the entry point expects fails on it. -/
def wrong_type (n : ConfNode) : Prop :=
  ((n.id = some "file" ∨ n.id = some "infile" ∨ n.id = some "format") ∧ n.string = none) ∨
  ((n.id = some "rate" ∨ n.id = some "channels") ∧ n.integer = none)

instance wrong_type_decidable (n : ConfNode) : Decidable (wrong_type n) := by
  unfold wrong_type
  exact inferInstance

/-- What an attempt asked for and what it did to the position: everything but the raw
return value. -/
def Attempt.footprint (a : Attempt) : Nat × Nat × Nat × Nat × Nat × Nat :=
  (a.ptr, a.offset, a.frames, a.count, a.ptr_add, a.ptr_new)

/-- A callback the host may invoke on a started stream: the readiness handler
(`fifo_read_poll_revents` or `fifo_write_poll_revents`), `fifo_stop` or `fifo_pointer`. -/
inductive Callback where
  | poll (v : Invocation)
  | stop
  | pointer
deriving DecidableEq, Repr

/-- The host invokes one callback; `fifo_pointer` only reads the instance. -/
def callback (w : Nat) (thr : Int) (ep : Nat → Nat → Int) (C ch : Nat) :
    Callback → Dev → Dev
  | Callback.poll v, d => invoke w thr ep C ch v d
  | Callback.stop, d => { d with fifo := (fifo_stop d.fifo).2 }
  | Callback.pointer, d => d

/-- The host invokes a sequence of callbacks; a handler that did not return is the last
thing that happens. -/
def callbacks (w : Nat) (thr : Int) (ep : Nat → Nat → Int) (C ch : Nat) :
    List Callback → Dev → Dev
  | [], d => d
  | c :: cs, d =>
    let d1 := callback w thr ep C ch c d
    if d1.exit = Exit.done then callbacks w thr ep C ch cs d1 else d1

/-! ## Basic facts shared by the proofs -/

theorem fifo_write_loop_eq_read (w : Nat) (thr : Int) (ep : Nat → Nat → Int) (plug : Ioplug)
    (n : Nat) : ∀ (fifo : Fifo) (avail calls : Nat),
    fifo_write_loop w thr ep plug n fifo avail calls
      = fifo_read_loop w thr ep plug n fifo avail calls := by
  induction n with
  | zero => intro fifo avail calls; rfl
  | succ n ih =>
    intro fifo avail calls
    simp only [fifo_write_loop, fifo_read_loop, ih]

theorem fifo_read_loop_succ (w : Nat) (thr : Int) (ep : Nat → Nat → Int) (plug : Ioplug)
    (n : Nat) (fifo : Fifo) (avail calls : Nat) :
    fifo_read_loop w thr ep plug (n + 1) fifo avail calls =
      if avail = 0 then ⟨fifo, [], Exit.done⟩
      else if plug.buffer_size = 0 then ⟨fifo, [], Exit.fault⟩
      else if 0 < (next_attempt thr ep plug fifo avail calls).ret
          ∧ fifo.frame_bytes * plug.channels = 0 then
        ⟨fifo, [{ next_attempt thr ep plug fifo avail calls with
                  ptr_add := fifo.ptr, ptr_new := fifo.ptr }], Exit.fault⟩
      else if whole_frames (fifo.frame_bytes * plug.channels)
          (next_attempt thr ep plug fifo avail calls).ret
            < ((next_attempt thr ep plug fifo avail calls).frames : Int) then
        ⟨{ fifo with ptr := (next_attempt thr ep plug fifo avail calls).ptr_new },
          [next_attempt thr ep plug fifo avail calls], Exit.done⟩
      else
        ⟨(fifo_read_loop w thr ep plug n
            { fifo with ptr := (next_attempt thr ep plug fifo avail calls).ptr_new }
            (to_uframes w ((avail : Int) - whole_frames (fifo.frame_bytes * plug.channels)
              (next_attempt thr ep plug fifo avail calls).ret)) (calls + 1)).fifo,
         next_attempt thr ep plug fifo avail calls ::
          (fifo_read_loop w thr ep plug n
            { fifo with ptr := (next_attempt thr ep plug fifo avail calls).ptr_new }
            (to_uframes w ((avail : Int) - whole_frames (fifo.frame_bytes * plug.channels)
              (next_attempt thr ep plug fifo avail calls).ret)) (calls + 1)).log,
         (fifo_read_loop w thr ep plug n
            { fifo with ptr := (next_attempt thr ep plug fifo avail calls).ptr_new }
            (to_uframes w ((avail : Int) - whole_frames (fifo.frame_bytes * plug.channels)
              (next_attempt thr ep plug fifo avail calls).ret)) (calls + 1)).exit⟩ := by
  by_cases h0 : avail = 0
  · simp [fifo_read_loop, h0]
  · have h0p : avail > 0 := Nat.pos_of_ne_zero h0
    by_cases hC : plug.buffer_size = 0
    · simp [fifo_read_loop, h0, h0p, hC]
    · rw [if_neg h0, if_neg hC]
      have hch : chunk plug.buffer_size fifo.ptr avail
          = (if avail > plug.buffer_size - fifo.ptr % plug.buffer_size
              then plug.buffer_size - fifo.ptr % plug.buffer_size else avail) := rfl
      simp only [fifo_read_loop, if_pos h0p, if_neg hC, next_attempt, hch]
      generalize (if avail > plug.buffer_size - fifo.ptr % plug.buffer_size
              then plug.buffer_size - fifo.ptr % plug.buffer_size else avail) = frames
      generalize ep calls (frames * fifo.frame_bytes * plug.channels) = ret
      by_cases hr : 0 < ret
      · by_cases hz : fifo.frame_bytes * plug.channels = 0
        · simp [hr, hz]
        · simp [guarded, whole_frames, hr, hz]
      · simp [guarded, whole_frames, hr]

theorem chunk_le_avail (C p avail : Nat) : chunk C p avail ≤ avail := by
  unfold chunk; split_ifs <;> omega

theorem chunk_le_cont (C p avail : Nat) : chunk C p avail ≤ C - p % C := by
  unfold chunk; split_ifs <;> omega

theorem chunk_pos (C p avail : Nat) (hC : 0 < C) (ha : 0 < avail) : 0 < chunk C p avail := by
  have := Nat.mod_lt p hC
  unfold chunk; split_ifs <;> omega

theorem read_loop_short_stops (w : Nat) (thr : Int) (ep : Nat → Nat → Int) (plug : Ioplug)
    (fb : Nat) (n : Nat) : ∀ (fifo : Fifo) (avail calls : Nat), fifo.frame_bytes = fb →
    ∀ (k : Nat) (a : Attempt),
      (fifo_read_loop w thr ep plug n fifo avail calls).log[k]? = some a →
      whole_frames (fb * plug.channels) a.ret < (a.frames : Int) →
      (fifo_read_loop w thr ep plug n fifo avail calls).log.length = k + 1 ∧
      (fifo_read_loop w thr ep plug n fifo avail calls).exit ≠ Exit.fuel ∧
      (0 < fb * plug.channels →
        (fifo_read_loop w thr ep plug n fifo avail calls).exit = Exit.done) := by
  induction n with
  | zero =>
    intro fifo avail calls _ k a hk
    simp [fifo_read_loop] at hk
  | succ n ih =>
    intro fifo avail calls hfb k a hk hshort
    rw [fifo_read_loop_succ] at hk ⊢
    subst hfb
    split_ifs at hk ⊢ with h1 h2 h3 h4
    · simp at hk
    · simp at hk
    · cases k with
      | zero =>
        refine ⟨by simp, by simp, ?_⟩
        intro hpos
        omega
      | succ k => simp at hk
    · cases k with
      | zero => simp
      | succ k => simp at hk
    · cases k with
      | zero =>
        simp only [List.getElem?_cons_zero, Option.some.injEq] at hk
        subst hk
        exact absurd hshort h4
      | succ k =>
        simp only [List.getElem?_cons_succ] at hk
        have := ih { fifo with ptr := (next_attempt thr ep plug fifo avail calls).ptr_new }
          _ _ rfl k a hk hshort
        simpa using this

/-! ## C1: a short transfer ends the invocation -/

/-- C1. Short-transfer termination: in one invocation of `fifo_read` or `fifo_write`, for
every entry state, every capacity and every endpoint behaviour, if some attempt (the one
at index `k`, counting from 0) yields fewer whole frames than the chunk it requested
(a zero or negative return included), then that attempt is the last one: the invocation
made exactly `k + 1` attempts and is over (it is not still looping), and it returned
whenever the frame size is positive. -/
theorem short_transfer_termination (w : Nat) (thr : Int) (ep : Nat → Nat → Int) (fuel : Nat)
    (plug : Ioplug) (fifo : Fifo) (calls k : Nat) (a : Attempt) :
    ((fifo_read w thr ep fuel plug fifo calls).log[k]? = some a →
      whole_frames (fifo.frame_bytes * plug.channels) a.ret < (a.frames : Int) →
      (fifo_read w thr ep fuel plug fifo calls).log.length = k + 1 ∧
      (fifo_read w thr ep fuel plug fifo calls).exit ≠ Exit.fuel ∧
      (0 < fifo.frame_bytes * plug.channels →
        (fifo_read w thr ep fuel plug fifo calls).exit = Exit.done)) ∧
    ((fifo_write w thr ep fuel plug fifo calls).log[k]? = some a →
      whole_frames (fifo.frame_bytes * plug.channels) a.ret < (a.frames : Int) →
      (fifo_write w thr ep fuel plug fifo calls).log.length = k + 1 ∧
      (fifo_write w thr ep fuel plug fifo calls).exit ≠ Exit.fuel ∧
      (0 < fifo.frame_bytes * plug.channels →
        (fifo_write w thr ep fuel plug fifo calls).exit = Exit.done)) := by
  constructor
  · intro hk hs
    exact read_loop_short_stops w thr ep plug fifo.frame_bytes fuel fifo _ calls rfl k a hk hs
  · intro hk hs
    unfold fifo_write at hk ⊢
    rw [fifo_write_loop_eq_read] at hk ⊢
    exact read_loop_short_stops w thr ep plug fifo.frame_bytes fuel fifo _ calls rfl k a hk hs

/-- C1 at a concrete input: capacity 4, two bytes per frame, entry position 2, four frames
available; the first attempt is full (2 frames), the second delivers 1 of 2 frames and is
the last one. -/
theorem short_transfer_termination_witness :
    (fifo_read 64 (2 ^ 30) (fun i n => if i = 0 then (n : Int) else 2) 8
        ⟨0, 0, 4, 1⟩ ⟨3, 1, 16000, 2, 2, 2⟩ 0).log[1]? = some ⟨4, 0, 2, 4, 2, 5, 5⟩ ∧
    (fifo_read 64 (2 ^ 30) (fun i n => if i = 0 then (n : Int) else 2) 8
        ⟨0, 0, 4, 1⟩ ⟨3, 1, 16000, 2, 2, 2⟩ 0).log.length = 2 ∧
    (fifo_read 64 (2 ^ 30) (fun i n => if i = 0 then (n : Int) else 2) 8
        ⟨0, 0, 4, 1⟩ ⟨3, 1, 16000, 2, 2, 2⟩ 0).exit = Exit.done ∧
    (fifo_write 64 (2 ^ 30) (fun i n => if i = 0 then (n : Int) else 2) 8
        ⟨6, 0, 4, 1⟩ ⟨3, 1, 16000, 2, 2, 2⟩ 0).log.length = 2 :=
  ⟨by decide,
   ((short_transfer_termination 64 (2 ^ 30) (fun i n => if i = 0 then (n : Int) else 2) 8
      ⟨0, 0, 4, 1⟩ ⟨3, 1, 16000, 2, 2, 2⟩ 0 1 ⟨4, 0, 2, 4, 2, 5, 5⟩).1
      (by decide) (by decide)).1,
   ((short_transfer_termination 64 (2 ^ 30) (fun i n => if i = 0 then (n : Int) else 2) 8
      ⟨0, 0, 4, 1⟩ ⟨3, 1, 16000, 2, 2, 2⟩ 0 1 ⟨4, 0, 2, 4, 2, 5, 5⟩).1
      (by decide) (by decide)).2.2 (by decide),
   ((short_transfer_termination 64 (2 ^ 30) (fun i n => if i = 0 then (n : Int) else 2) 8
      ⟨6, 0, 4, 1⟩ ⟨3, 1, 16000, 2, 2, 2⟩ 0 1 ⟨4, 0, 2, 4, 2, 5, 5⟩).2
      (by decide) (by decide)).1⟩

/-! ## C2: the offset of every attempt is the transferred total modulo the capacity -/

theorem moved_nil (fsz : Nat) : moved fsz [] = 0 := rfl

theorem moved_cons (fsz : Nat) (a : Attempt) (l : List Attempt) :
    moved fsz (a :: l) = a.xfer fsz + moved fsz l := by
  simp [moved]

theorem moved_append (fsz : Nat) (l1 l2 : List Attempt) :
    moved fsz (l1 ++ l2) = moved fsz l1 + moved fsz l2 := by
  simp [moved]

theorem guarded_mod (thr : Int) (C p : Nat) : guarded thr C p % C = p % C := by
  unfold guarded
  split_ifs
  · exact Nat.mod_mod _ _
  · rfl

theorem next_attempt_ptr_new_mod (thr : Int) (ep : Nat → Nat → Int) (plug : Ioplug)
    (fifo : Fifo) (avail calls : Nat) :
    (next_attempt thr ep plug fifo avail calls).ptr_new % plug.buffer_size
      = (fifo.ptr + (next_attempt thr ep plug fifo avail calls).xfer
          (fifo.frame_bytes * plug.channels)) % plug.buffer_size := by
  simp only [next_attempt, Attempt.xfer]
  split_ifs with h
  · exact guarded_mod _ _ _
  · simp

theorem offsets_append (C fsz p q : Nat) (l1 l2 : List Attempt)
    (h1 : ∀ (i : Nat) (a : Attempt), l1[i]? = some a →
      a.offset = (p + moved fsz (l1.take i)) % C)
    (hq : q % C = (p + moved fsz l1) % C)
    (h2 : ∀ (i : Nat) (a : Attempt), l2[i]? = some a →
      a.offset = (q + moved fsz (l2.take i)) % C) :
    ∀ (i : Nat) (a : Attempt), (l1 ++ l2)[i]? = some a →
      a.offset = (p + moved fsz ((l1 ++ l2).take i)) % C := by
  intro i a h
  by_cases hi : i < l1.length
  · rw [List.getElem?_append_left hi] at h
    rw [List.take_append_of_le_length (Nat.le_of_lt hi)]
    exact h1 i a h
  · have hle : l1.length ≤ i := Nat.le_of_not_lt hi
    rw [List.getElem?_append_right hle] at h
    rw [List.take_append_eq_append_take, List.take_of_length_le hle, moved_append,
      h2 _ a h, ← Nat.add_assoc, Nat.add_mod, hq, ← Nat.add_mod]

theorem read_loop_fifo_fields (w : Nat) (thr : Int) (ep : Nat → Nat → Int) (plug : Ioplug)
    (n : Nat) : ∀ (fifo : Fifo) (avail calls : Nat),
    (fifo_read_loop w thr ep plug n fifo avail calls).fifo
      = { fifo with ptr := (fifo_read_loop w thr ep plug n fifo avail calls).fifo.ptr } := by
  induction n with
  | zero => intro fifo avail calls; rfl
  | succ n ih =>
    intro fifo avail calls
    rw [fifo_read_loop_succ]
    split_ifs
    · rfl
    · rfl
    · rfl
    · rfl
    · simp only
      rw [ih]

theorem read_loop_offsets (w : Nat) (thr : Int) (ep : Nat → Nat → Int) (plug : Ioplug)
    (n : Nat) : ∀ (fifo : Fifo) (avail calls : Nat),
    (∀ (i : Nat) (a : Attempt),
      (fifo_read_loop w thr ep plug n fifo avail calls).log[i]? = some a →
      a.offset = (fifo.ptr + moved (fifo.frame_bytes * plug.channels)
        ((fifo_read_loop w thr ep plug n fifo avail calls).log.take i)) % plug.buffer_size) ∧
    (fifo_read_loop w thr ep plug n fifo avail calls).fifo.ptr % plug.buffer_size
      = (fifo.ptr + moved (fifo.frame_bytes * plug.channels)
          (fifo_read_loop w thr ep plug n fifo avail calls).log) % plug.buffer_size := by
  induction n with
  | zero =>
    intro fifo avail calls
    simp [fifo_read_loop, moved_nil]
  | succ n ih =>
    intro fifo avail calls
    rw [fifo_read_loop_succ]
    split_ifs with h1 h2 h3 h4
    · simp [moved_nil]
    · simp [moved_nil]
    · constructor
      · intro i a hi
        cases i with
        | zero =>
          simp only [List.getElem?_cons_zero, Option.some.injEq] at hi
          subst hi
          simp [moved_nil, next_attempt]
        | succ i => simp at hi
      · simp [moved_cons, moved_nil, Attempt.xfer, h3.2]
    · constructor
      · intro i a hi
        cases i with
        | zero =>
          simp only [List.getElem?_cons_zero, Option.some.injEq] at hi
          subst hi
          simp [moved_nil, next_attempt]
        | succ i => simp at hi
      · simp only [moved_cons, moved_nil, Nat.add_zero]
        exact next_attempt_ptr_new_mod thr ep plug fifo avail calls
    · have hstep := next_attempt_ptr_new_mod thr ep plug fifo avail calls
      obtain ⟨ih1, ih2⟩ := ih
        { fifo with ptr := (next_attempt thr ep plug fifo avail calls).ptr_new }
        (to_uframes w ((avail : Int) - whole_frames (fifo.frame_bytes * plug.channels)
          (next_attempt thr ep plug fifo avail calls).ret)) (calls + 1)
      constructor
      · apply offsets_append plug.buffer_size (fifo.frame_bytes * plug.channels) fifo.ptr
          (next_attempt thr ep plug fifo avail calls).ptr_new
          [next_attempt thr ep plug fifo avail calls]
        · intro i a hi
          cases i with
          | zero =>
            simp only [List.getElem?_cons_zero, Option.some.injEq] at hi
            subst hi
            simp [moved_nil, next_attempt]
          | succ i => simp at hi
        · simpa [moved_cons, moved_nil] using hstep
        · exact ih1
      · simp only [moved_cons]
        rw [ih2, Nat.add_mod, hstep, ← Nat.add_mod, Nat.add_assoc]

theorem fifo_write_eq_read_loop (w : Nat) (thr : Int) (ep : Nat → Nat → Int) (fuel : Nat)
    (plug : Ioplug) (fifo : Fifo) (calls : Nat) :
    fifo_write w thr ep fuel plug fifo calls
      = fifo_read_loop w thr ep plug fuel fifo (fifo_write_avail w plug fifo) calls := by
  unfold fifo_write
  exact fifo_write_loop_eq_read w thr ep plug fuel fifo _ calls

/-- The invocation run by `invoke`, as a run of the read loop from some `avail`. -/
theorem invoke_eq_loop (w : Nat) (thr : Int) (ep : Nat → Nat → Int) (C ch : Nat)
    (v : Invocation) (d : Dev) :
    ∃ avail : Nat,
      invoke w thr ep C ch v d =
        ⟨(fifo_read_loop w thr ep ⟨v.appl_ptr, v.hw_ptr, C, ch⟩ v.fuel d.fifo avail d.calls).fifo,
         d.calls
          + (fifo_read_loop w thr ep ⟨v.appl_ptr, v.hw_ptr, C, ch⟩ v.fuel d.fifo avail d.calls).log.length,
         d.runs
          ++ [(fifo_read_loop w thr ep ⟨v.appl_ptr, v.hw_ptr, C, ch⟩ v.fuel d.fifo avail d.calls).log],
         (fifo_read_loop w thr ep ⟨v.appl_ptr, v.hw_ptr, C, ch⟩ v.fuel d.fifo avail d.calls).exit⟩ := by
  cases hv : v.playback with
  | true =>
    refine ⟨fifo_write_avail w ⟨v.appl_ptr, v.hw_ptr, C, ch⟩ d.fifo, ?_⟩
    simp only [invoke, hv, if_true, fifo_write_eq_read_loop]
  | false =>
    refine ⟨fifo_read_avail w ⟨v.appl_ptr, v.hw_ptr, C, ch⟩, ?_⟩
    simp only [invoke, hv, fifo_read]
    rfl

/-- The offset invariant of a device over its whole trace. -/
theorem invoke_offsets (w : Nat) (thr : Int) (ep : Nat → Nat → Int) (C ch fb : Nat)
    (v : Invocation) (d : Dev)
    (hfb : d.fifo.frame_bytes = fb)
    (h1 : ∀ (i : Nat) (a : Attempt), d.trace[i]? = some a →
      a.offset = (0 + moved (fb * ch) (d.trace.take i)) % C)
    (h2 : d.fifo.ptr % C = (0 + moved (fb * ch) d.trace) % C) :
    (invoke w thr ep C ch v d).fifo.frame_bytes = fb ∧
    (∀ (i : Nat) (a : Attempt), (invoke w thr ep C ch v d).trace[i]? = some a →
      a.offset = (0 + moved (fb * ch) ((invoke w thr ep C ch v d).trace.take i)) % C) ∧
    (invoke w thr ep C ch v d).fifo.ptr % C
      = (0 + moved (fb * ch) (invoke w thr ep C ch v d).trace) % C := by
  obtain ⟨avail, hinv⟩ := invoke_eq_loop w thr ep C ch v d
  rw [hinv]
  obtain ⟨l1, l2⟩ := read_loop_offsets w thr ep ⟨v.appl_ptr, v.hw_ptr, C, ch⟩ v.fuel
    d.fifo avail d.calls
  have hf := read_loop_fifo_fields w thr ep ⟨v.appl_ptr, v.hw_ptr, C, ch⟩ v.fuel
    d.fifo avail d.calls
  subst hfb
  simp only at l1 l2
  refine ⟨?_, ?_, ?_⟩
  · simp only
    rw [hf]
  · simp only [Dev.trace, List.flatten_append, List.flatten_singleton]
    exact offsets_append C _ 0 d.fifo.ptr _ _ h1 h2 l1
  · simp only [Dev.trace, List.flatten_append, List.flatten_singleton, moved_append]
    rw [l2, Nat.add_mod, h2, ← Nat.add_mod]
    simp only [Dev.trace, Nat.zero_add]

theorem session_offsets (w : Nat) (thr : Int) (ep : Nat → Nat → Int) (C ch fb : Nat)
    (vs : List Invocation) : ∀ (d : Dev), d.fifo.frame_bytes = fb →
    (∀ (i : Nat) (a : Attempt), d.trace[i]? = some a →
      a.offset = (0 + moved (fb * ch) (d.trace.take i)) % C) →
    d.fifo.ptr % C = (0 + moved (fb * ch) d.trace) % C →
    (∀ (i : Nat) (a : Attempt), (session w thr ep C ch vs d).trace[i]? = some a →
      a.offset = (0 + moved (fb * ch) ((session w thr ep C ch vs d).trace.take i)) % C) ∧
    (session w thr ep C ch vs d).fifo.ptr % C
      = (0 + moved (fb * ch) (session w thr ep C ch vs d).trace) % C := by
  induction vs with
  | nil => intro d _ h1 h2; exact ⟨h1, h2⟩
  | cons v vs ih =>
    intro d hfb h1 h2
    obtain ⟨g0, g1, g2⟩ := invoke_offsets w thr ep C ch fb v d hfb h1 h2
    simp only [session]
    split_ifs
    · exact ih _ g0 g1 g2
    · exact ⟨g1, g2⟩

/-- C2. Wraparound correctness: start a device with `fifo_start` and let the host deliver
any sequence of readiness events (reads or writes, any cursors, any endpoint results,
any threshold value of the overflow guard). Every attempt ever made used as its offset
the total number of whole frames transferred before it, modulo the capacity `C`; and the
offset the next attempt would use, `ptr mod C`, is the total transferred so far
modulo `C`. -/
theorem wraparound_offsets (w : Nat) (thr : Int) (ep : Nat → Nat → Int) (C ch : Nat)
    (fifo : Fifo) (calls : Nat) (vs : List Invocation) :
    (∀ (i : Nat) (a : Attempt),
      (session w thr ep C ch vs (started fifo calls)).trace[i]? = some a →
      a.offset = moved (fifo.frame_bytes * ch)
        ((session w thr ep C ch vs (started fifo calls)).trace.take i) % C) ∧
    (session w thr ep C ch vs (started fifo calls)).fifo.ptr % C
      = moved (fifo.frame_bytes * ch) (session w thr ep C ch vs (started fifo calls)).trace % C := by
  have h := session_offsets w thr ep C ch fifo.frame_bytes vs (started fifo calls) rfl
    (by intro i a hi; simp [started, Dev.trace] at hi)
    (by simp [started, Dev.trace, fifo_start, moved_nil])
  simpa using h

/-- C2 at a concrete input: capacity 4, guard threshold 6, a short read of 3 frames, a
playback call of 1 + 4 frames (after which the guard reduces the counter from 8 to 0), then
a capture call. The fourth attempt starts after 8 frames, a multiple of the capacity, and
uses offset 0. -/
theorem wraparound_offsets_witness :
    (session 64 6 (fun i n => if i = 0 then 6 else (n : Int)) 4 1
        [⟨false, 0, 0, 8⟩, ⟨true, 8, 0, 8⟩, ⟨false, 0, 0, 8⟩] (started ⟨3, 1, 16000, 2, 2, 9⟩ 0)).trace[3]? = some ⟨0, 0, 4, 8, 8, 4, 4⟩ ∧
    moved 2 ((session 64 6 (fun i n => if i = 0 then 6 else (n : Int)) 4 1
        [⟨false, 0, 0, 8⟩, ⟨true, 8, 0, 8⟩, ⟨false, 0, 0, 8⟩] (started ⟨3, 1, 16000, 2, 2, 9⟩ 0)).trace.take 3) = 8 ∧
    (⟨0, 0, 4, 8, 8, 4, 4⟩ : Attempt).offset = moved (2 * 1) ((session 64 6 (fun i n => if i = 0 then 6 else (n : Int)) 4 1
        [⟨false, 0, 0, 8⟩, ⟨true, 8, 0, 8⟩, ⟨false, 0, 0, 8⟩] (started ⟨3, 1, 16000, 2, 2, 9⟩ 0)).trace.take 3) % 4 :=
  ⟨by decide, by decide,
   (wraparound_offsets 64 6 (fun i n => if i = 0 then 6 else (n : Int)) 4 1
      ⟨3, 1, 16000, 2, 2, 9⟩ 0 [⟨false, 0, 0, 8⟩, ⟨true, 8, 0, 8⟩, ⟨false, 0, 0, 8⟩]).1
      3 ⟨0, 0, 4, 8, 8, 4, 4⟩ (by decide)⟩

/-! ## C3: the guard constant -/

/-- C3. The guard constant `(1 << (sizeof(snd_pcm_sframes_t) * 8 - 2))` evaluated as C
evaluates it, with the literal `1` of type `int`: where `snd_pcm_sframes_t` has 8 bytes
the shift count 62 is not below the width of `int` and the expression has no defined
value (so it is not `2 ^ 62`, a quarter of the 64-bit range); where it has 4 bytes the
constant is `2 ^ 30`, a quarter of the 32-bit range. -/
theorem ptr_guard_by_width : ptr_guard 8 = none ∧ ptr_guard 4 = some (2 ^ 30) := by
  constructor <;> decide

/-- Whatever value an `int` shift has, it is below `2 ^ 31`. -/
theorem int_shl_lt (a : Int) (n : Nat) (v : Int) (h : int_shl a n = some v) : v < 2 ^ 31 := by
  unfold int_shl at h
  split_ifs at h with hc
  simp only [Option.some.injEq] at h
  rw [← h]
  exact hc.2.2

/-- The position update for an arbitrary guard value `thr`: the advanced position is
reduced modulo `C` exactly when it exceeds `thr`, and its residue modulo `C` is kept. -/
theorem guarded_update (thr : Int) (C p r : Nat) :
    guarded thr C (p + r) = (if ((p + r : Nat) : Int) > thr then (p + r) % C else p + r) ∧
    guarded thr C (p + r) % C = (p + r) % C :=
  ⟨rfl, guarded_mod thr C (p + r)⟩

/-! ## Endpoints that return at most the requested byte count -/

theorem to_uframes_le (w : Nat) (x : Int) (hx : 0 ≤ x) : to_uframes w x ≤ x.toNat := by
  unfold to_uframes
  obtain ⟨k, rfl⟩ := Int.eq_ofNat_of_zero_le hx
  rw [← Int.natCast_mod]
  simp only [Int.toNat_ofNat]
  exact Nat.mod_le _ _

theorem to_uframes_eq (w : Nat) (k : Nat) (hk : k < 2 ^ w) : to_uframes w (k : Int) = k := by
  unfold to_uframes
  rw [← Int.natCast_mod, Int.toNat_ofNat]
  exact Nat.mod_eq_of_lt hk

theorem to_uframes_lt (w : Nat) (x : Int) : to_uframes w x < 2 ^ w := by
  unfold to_uframes
  have hpos : (0 : Int) < ((2 ^ w : Nat) : Int) := by positivity
  have h1 := Int.emod_lt_of_pos x hpos
  have h2 := Int.emod_nonneg x (ne_of_gt hpos)
  omega

/-- What an endpoint that returns at most the requested byte count lets an iteration do. -/
theorem next_attempt_posix (thr : Int) (ep : Nat → Nat → Int) (plug : Ioplug) (fifo : Fifo)
    (avail calls : Nat) (hep : ∀ i n, ep i n ≤ (n : Int)) :
    ¬ (0 < (next_attempt thr ep plug fifo avail calls).ret
        ∧ fifo.frame_bytes * plug.channels = 0) ∧
    whole_frames (fifo.frame_bytes * plug.channels) (next_attempt thr ep plug fifo avail calls).ret
      ≤ ((next_attempt thr ep plug fifo avail calls).frames : Int) ∧
    (next_attempt thr ep plug fifo avail calls).xfer (fifo.frame_bytes * plug.channels)
      ≤ (next_attempt thr ep plug fifo avail calls).frames ∧
    (0 < (next_attempt thr ep plug fifo avail calls).ret →
      whole_frames (fifo.frame_bytes * plug.channels)
        (next_attempt thr ep plug fifo avail calls).ret
        = (((next_attempt thr ep plug fifo avail calls).xfer
            (fifo.frame_bytes * plug.channels) : Nat) : Int)) := by
  have hret := hep calls (chunk plug.buffer_size fifo.ptr avail * fifo.frame_bytes * plug.channels)
  simp only [next_attempt, whole_frames, Attempt.xfer]
  generalize ep calls (chunk plug.buffer_size fifo.ptr avail * fifo.frame_bytes * plug.channels)
    = ret at hret
  generalize chunk plug.buffer_size fifo.ptr avail = frames at hret
  by_cases hr : 0 < ret
  · have hz : fifo.frame_bytes * plug.channels ≠ 0 := by
      intro hz
      rw [Nat.mul_assoc, hz] at hret
      simp at hret
      omega
    have hpos : (0 : Int) < ((fifo.frame_bytes * plug.channels : Nat) : Int) := by
      exact_mod_cast Nat.pos_of_ne_zero hz
    have hdiv : ret / ((fifo.frame_bytes * plug.channels : Nat) : Int) ≤ (frames : Int) := by
      apply Int.ediv_le_of_le_mul hpos
      rw [Nat.mul_assoc] at hret
      exact_mod_cast hret
    have hnn : 0 ≤ ret / ((fifo.frame_bytes * plug.channels : Nat) : Int) :=
      Int.ediv_nonneg (le_of_lt hr) (le_of_lt hpos)
    simp only [hr, if_true]
    refine ⟨by tauto, hdiv, by omega, fun _ => by omega⟩
  · simp only [hr, if_false]
    refine ⟨by tauto, by omega, by omega, fun h => absurd h (by tauto)⟩

theorem guarded_le (thr : Int) (C p : Nat) : guarded thr C p ≤ p := by
  unfold guarded
  split_ifs
  · exact Nat.mod_le _ _
  · exact Nat.le_refl _

theorem next_attempt_ptr_new_le (thr : Int) (ep : Nat → Nat → Int) (plug : Ioplug)
    (fifo : Fifo) (avail calls : Nat) :
    (next_attempt thr ep plug fifo avail calls).ptr_new
      ≤ (next_attempt thr ep plug fifo avail calls).ptr_add ∧
    (next_attempt thr ep plug fifo avail calls).ptr_add
      = fifo.ptr + (next_attempt thr ep plug fifo avail calls).xfer
          (fifo.frame_bytes * plug.channels) ∧
    (next_attempt thr ep plug fifo avail calls).frames = chunk plug.buffer_size fifo.ptr avail := by
  simp only [next_attempt, Attempt.xfer]
  refine ⟨?_, trivial, trivial⟩
  split_ifs
  · exact guarded_le _ _ _
  · omega

/-- A run against an endpoint that returns at most the requested byte count: it transfers
at most `avail` frames, never moves the position beyond `avail` frames past its value on
entry, divides by zero only when the capacity is zero, and is over within `avail`
iterations. -/
theorem read_loop_posix (w : Nat) (thr : Int) (ep : Nat → Nat → Int) (plug : Ioplug)
    (hep : ∀ i n, ep i n ≤ (n : Int)) (n : Nat) : ∀ (fifo : Fifo) (avail calls : Nat),
    moved (fifo.frame_bytes * plug.channels)
      (fifo_read_loop w thr ep plug n fifo avail calls).log ≤ avail ∧
    (fifo_read_loop w thr ep plug n fifo avail calls).fifo.ptr ≤ fifo.ptr + avail ∧
    (∀ a ∈ (fifo_read_loop w thr ep plug n fifo avail calls).log,
      a.ptr_add ≤ fifo.ptr + avail ∧ a.ptr_new ≤ fifo.ptr + avail) ∧
    ((fifo_read_loop w thr ep plug n fifo avail calls).exit = Exit.fault →
      plug.buffer_size = 0) ∧
    (avail ≤ n → (fifo_read_loop w thr ep plug n fifo avail calls).exit ≠ Exit.fuel) := by
  induction n with
  | zero =>
    intro fifo avail calls
    simp only [fifo_read_loop, moved_nil]
    refine ⟨Nat.zero_le _, Nat.le_add_right _ _, by simp, ?_, ?_⟩
    · split_ifs <;> simp
    · intro h
      have : avail = 0 := by omega
      simp [this]
  | succ n ih =>
    intro fifo avail calls
    obtain ⟨p1, p2, p3, p4⟩ := next_attempt_posix thr ep plug fifo avail calls hep
    obtain ⟨q1, q2, q3⟩ := next_attempt_ptr_new_le thr ep plug fifo avail calls
    have hfa := chunk_le_avail plug.buffer_size fifo.ptr avail
    rw [fifo_read_loop_succ]
    split_ifs with h1 h2 h4
    · simp [moved_nil]
    · simp [moved_nil, h2]
    · simp only [moved_cons, moved_nil, List.mem_singleton, forall_eq]
      refine ⟨by omega, by omega, ⟨by omega, by omega⟩, by simp, by simp⟩
    · have hC : 0 < plug.buffer_size := Nat.pos_of_ne_zero h2
      have hpos := chunk_pos plug.buffer_size fifo.ptr avail hC (Nat.pos_of_ne_zero h1)
      have hret : 0 < (next_attempt thr ep plug fifo avail calls).ret := by
        by_contra hneg
        apply h4
        have : whole_frames (fifo.frame_bytes * plug.channels)
            (next_attempt thr ep plug fifo avail calls).ret
            = (next_attempt thr ep plug fifo avail calls).ret := by
          simp [whole_frames, hneg]
        rw [this]
        omega
      have hw := p4 hret
      have hx : (next_attempt thr ep plug fifo avail calls).xfer
          (fifo.frame_bytes * plug.channels)
          = (next_attempt thr ep plug fifo avail calls).frames := by omega
      have hav : to_uframes w ((avail : Int) - whole_frames (fifo.frame_bytes * plug.channels)
          (next_attempt thr ep plug fifo avail calls).ret)
          ≤ avail - (next_attempt thr ep plug fifo avail calls).frames := by
        have := to_uframes_le w ((avail : Int) - whole_frames (fifo.frame_bytes * plug.channels)
          (next_attempt thr ep plug fifo avail calls).ret) (by omega)
        omega
      obtain ⟨i1, i2, i3, i4, i5⟩ := ih
        { fifo with ptr := (next_attempt thr ep plug fifo avail calls).ptr_new }
        (to_uframes w ((avail : Int) - whole_frames (fifo.frame_bytes * plug.channels)
          (next_attempt thr ep plug fifo avail calls).ret)) (calls + 1)
      simp only at i1 i2 i3 i4 i5
      simp only [moved_cons, List.mem_cons, forall_eq_or_imp]
      refine ⟨by omega, by omega, ⟨⟨by omega, by omega⟩, ?_⟩, i4, ?_⟩
      · intro a ha
        have := i3 a ha
        omega
      · intro hle
        apply i5
        omega

theorem read_loop_avail_zero (w : Nat) (thr : Int) (ep : Nat → Nat → Int) (plug : Ioplug)
    (n : Nat) (fifo : Fifo) (calls : Nat) :
    fifo_read_loop w thr ep plug n fifo 0 calls = ⟨fifo, [], Exit.done⟩ := by
  cases n with
  | zero => simp [fifo_read_loop]
  | succ n => rw [fifo_read_loop_succ]; simp

theorem exit_done_of (e : Exit) (h1 : e ≠ Exit.fault) (h2 : e ≠ Exit.fuel) : e = Exit.done := by
  cases e <;> simp_all

/-! ## C4: capture never stores more than one buffer per invocation -/

/-- C4 as stated fails: with capacity 4, application cursor 1 and hardware cursor 0 the
stated contract `appl_ptr - hw_ptr <= C` holds, yet `fifo_read` computes `avail = 5` and,
against an endpoint that delivers every byte asked for, stores 5 frames in that one
invocation. -/
theorem no_overrun_capture_counterexample :
    ((1 : Int) - 0 ≤ 4) ∧
    ¬ (fifo_read_avail 64 ⟨1, 0, 4, 1⟩ ≤ 4) ∧
    ¬ (moved (2 * 1) (fifo_read 64 (2 ^ 30) (fun _ n => (n : Int)) 8 ⟨1, 0, 4, 1⟩
        ⟨3, 1, 16000, 2, 2, 0⟩ 0).log ≤ 4) := by
  refine ⟨by decide, by decide, by decide⟩

/-- C4, amended. No-overrun invariant (capture): whenever the capture contract
`0 <= hw_ptr - appl_ptr <= C` holds at entry to `fifo_read` (the hardware cursor leads the
application cursor by at most one buffer), the value `avail = appl_ptr - hw_ptr + C`
computed by `fifo_read` is at most `C`, the frames stored during that invocation total
at most `C`, for every endpoint whose `read` returns at most the byte count asked for;
and the invocation returns within `C` iterations. -/
theorem no_overrun_capture (w : Nat) (thr : Int) (ep : Nat → Nat → Int) (fuel : Nat)
    (plug : Ioplug) (fifo : Fifo) (calls : Nat)
    (hep : ∀ i n, ep i n ≤ (n : Int))
    (h1 : plug.appl_ptr ≤ plug.hw_ptr)
    (h2 : plug.hw_ptr ≤ plug.appl_ptr + plug.buffer_size) :
    fifo_read_avail w plug ≤ plug.buffer_size ∧
    moved (fifo.frame_bytes * plug.channels) (fifo_read w thr ep fuel plug fifo calls).log
      ≤ plug.buffer_size ∧
    (plug.buffer_size ≤ fuel → (fifo_read w thr ep fuel plug fifo calls).exit = Exit.done) := by
  have hav : fifo_read_avail w plug ≤ plug.buffer_size := by
    unfold fifo_read_avail
    have := to_uframes_le w
      ((plug.appl_ptr : Int) - (plug.hw_ptr : Int) + (plug.buffer_size : Int)) (by omega)
    omega
  obtain ⟨l1, _, _, l4, l5⟩ := read_loop_posix w thr ep plug hep fuel fifo
    (fifo_read_avail w plug) calls
  refine ⟨hav, ?_, ?_⟩
  · unfold fifo_read
    omega
  · intro hfuel
    unfold fifo_read
    apply exit_done_of
    · intro hf
      have hC := l4 hf
      have h0 : fifo_read_avail w plug = 0 := by omega
      rw [h0, read_loop_avail_zero] at hf
      simp at hf
    · exact l5 (by omega)

/-- C4 (amended) at a concrete input: capacity 4, hardware cursor 5, application cursor 2,
so one frame is free; the endpoint delivers everything asked for. -/
theorem no_overrun_capture_witness :
    fifo_read_avail 64 ⟨2, 5, 4, 1⟩ ≤ 4 ∧
    moved (2 * 1) (fifo_read 64 (2 ^ 30) (fun _ n => (n : Int)) 8 ⟨2, 5, 4, 1⟩
      ⟨3, 1, 16000, 2, 2, 0⟩ 0).log ≤ 4 ∧
    (fifo_read 64 (2 ^ 30) (fun _ n => (n : Int)) 8 ⟨2, 5, 4, 1⟩
      ⟨3, 1, 16000, 2, 2, 0⟩ 0).exit = Exit.done :=
  have h := no_overrun_capture 64 (2 ^ 30) (fun _ n => (n : Int)) 8 ⟨2, 5, 4, 1⟩
    ⟨3, 1, 16000, 2, 2, 0⟩ 0 (fun _ _ => le_refl _) (by decide) (by decide)
  ⟨h.1, h.2.1, h.2.2 (by decide)⟩

/-! ## C5: playback never passes the application cursor -/

/-- C5. Playback never overtakes the application: for every state with
`ptr <= appl_ptr` at entry and every endpoint whose `write` returns at most the byte count
asked for, the position after `fifo_write` is at most `appl_ptr`, and so is every value
the position takes inside the call (after `fifo->ptr += result` and after the guard). -/
theorem playback_never_overtakes (w : Nat) (thr : Int) (ep : Nat → Nat → Int) (fuel : Nat)
    (plug : Ioplug) (fifo : Fifo) (calls : Nat)
    (hep : ∀ i n, ep i n ≤ (n : Int))
    (h : fifo.ptr ≤ plug.appl_ptr) :
    (fifo_write w thr ep fuel plug fifo calls).fifo.ptr ≤ plug.appl_ptr ∧
    ∀ a ∈ (fifo_write w thr ep fuel plug fifo calls).log,
      a.ptr_add ≤ plug.appl_ptr ∧ a.ptr_new ≤ plug.appl_ptr := by
  rw [fifo_write_eq_read_loop]
  have hav : fifo_write_avail w plug fifo ≤ plug.appl_ptr - fifo.ptr := by
    unfold fifo_write_avail
    have := to_uframes_le w ((plug.appl_ptr : Int) - (fifo.ptr : Int)) (by omega)
    omega
  obtain ⟨_, l2, l3, _, _⟩ := read_loop_posix w thr ep plug hep fuel fifo
    (fifo_write_avail w plug fifo) calls
  refine ⟨by omega, ?_⟩
  intro a ha
  have := l3 a ha
  omega

/-- C5 at a concrete input: capacity 4, position 3, application cursor 6, an endpoint that
accepts everything. -/
theorem playback_never_overtakes_witness :
    (fifo_write 64 (2 ^ 30) (fun _ n => (n : Int)) 8 ⟨6, 0, 4, 1⟩
      ⟨3, 1, 16000, 2, 2, 3⟩ 0).fifo.ptr ≤ 6 :=
  (playback_never_overtakes 64 (2 ^ 30) (fun _ n => (n : Int)) 8 ⟨6, 0, 4, 1⟩
    ⟨3, 1, 16000, 2, 2, 3⟩ 0 (fun _ _ => le_refl _) (by decide)).1

/-! ## C6: playback against an endpoint that accepts everything -/

theorem next_attempt_full (thr : Int) (ep : Nat → Nat → Int) (plug : Ioplug) (fifo : Fifo)
    (avail calls : Nat) (hfull : ∀ i n, ep i n = (n : Int))
    (hfsz : 0 < fifo.frame_bytes * plug.channels)
    (hch : 0 < chunk plug.buffer_size fifo.ptr avail) :
    0 < (next_attempt thr ep plug fifo avail calls).ret ∧
    whole_frames (fifo.frame_bytes * plug.channels)
      (next_attempt thr ep plug fifo avail calls).ret
        = (chunk plug.buffer_size fifo.ptr avail : Int) ∧
    (next_attempt thr ep plug fifo avail calls).ptr_new
      = guarded thr plug.buffer_size (fifo.ptr + chunk plug.buffer_size fifo.ptr avail) := by
  have hret : ep calls (chunk plug.buffer_size fifo.ptr avail * fifo.frame_bytes * plug.channels)
      = (chunk plug.buffer_size fifo.ptr avail : Int)
          * ((fifo.frame_bytes * plug.channels : Nat) : Int) := by
    rw [hfull, Nat.mul_assoc]
    push_cast
    ring
  have hpos : (0 : Int) < ((fifo.frame_bytes * plug.channels : Nat) : Int) := by
    exact_mod_cast hfsz
  have hchz : (0 : Int) < (chunk plug.buffer_size fifo.ptr avail : Int) := by
    exact_mod_cast hch
  have hdiv : (chunk plug.buffer_size fifo.ptr avail : Int)
      * ((fifo.frame_bytes * plug.channels : Nat) : Int)
      / ((fifo.frame_bytes * plug.channels : Nat) : Int)
      = (chunk plug.buffer_size fifo.ptr avail : Int) :=
    Int.mul_ediv_cancel _ (ne_of_gt hpos)
  have hr : 0 < (chunk plug.buffer_size fifo.ptr avail : Int)
      * ((fifo.frame_bytes * plug.channels : Nat) : Int) := Int.mul_pos hchz hpos
  simp only [next_attempt, whole_frames, hret, hr, if_true, hdiv, Int.toNat_ofNat]
  exact ⟨trivial, trivial, trivial⟩

/-- One iteration against an endpoint that accepts everything, below the guard value. -/
theorem read_loop_full_step (w : Nat) (thr : Int) (ep : Nat → Nat → Int) (plug : Ioplug)
    (n : Nat) (fifo : Fifo) (avail calls : Nat) (hfull : ∀ i n, ep i n = (n : Int))
    (hfsz : 0 < fifo.frame_bytes * plug.channels) (hC : 0 < plug.buffer_size)
    (hav : 0 < avail) (hw : avail < 2 ^ w)
    (hthr : ((fifo.ptr + avail : Nat) : Int) ≤ thr) :
    fifo_read_loop w thr ep plug (n + 1) fifo avail calls =
      ⟨(fifo_read_loop w thr ep plug n
          { fifo with ptr := fifo.ptr + chunk plug.buffer_size fifo.ptr avail }
          (avail - chunk plug.buffer_size fifo.ptr avail) (calls + 1)).fifo,
       next_attempt thr ep plug fifo avail calls ::
        (fifo_read_loop w thr ep plug n
          { fifo with ptr := fifo.ptr + chunk plug.buffer_size fifo.ptr avail }
          (avail - chunk plug.buffer_size fifo.ptr avail) (calls + 1)).log,
       (fifo_read_loop w thr ep plug n
          { fifo with ptr := fifo.ptr + chunk plug.buffer_size fifo.ptr avail }
          (avail - chunk plug.buffer_size fifo.ptr avail) (calls + 1)).exit⟩ := by
  have hch := chunk_pos plug.buffer_size fifo.ptr avail hC hav
  have hle := chunk_le_avail plug.buffer_size fifo.ptr avail
  obtain ⟨f1, f2, f3⟩ := next_attempt_full thr ep plug fifo avail calls hfull hfsz hch
  have hfr : (next_attempt thr ep plug fifo avail calls).frames
      = chunk plug.buffer_size fifo.ptr avail := rfl
  have hg : guarded thr plug.buffer_size (fifo.ptr + chunk plug.buffer_size fifo.ptr avail)
      = fifo.ptr + chunk plug.buffer_size fifo.ptr avail := by
    unfold guarded
    rw [if_neg]
    push_cast at hthr ⊢
    omega
  have hu : to_uframes w ((avail : Int) - (chunk plug.buffer_size fifo.ptr avail : Int))
      = avail - chunk plug.buffer_size fifo.ptr avail := by
    have : (avail : Int) - (chunk plug.buffer_size fifo.ptr avail : Int)
        = ((avail - chunk plug.buffer_size fifo.ptr avail : Nat) : Int) := by omega
    rw [this]
    exact to_uframes_eq w _ (by omega)
  rw [fifo_read_loop_succ, if_neg (by omega), if_neg (by omega), if_neg (by omega), f2, hfr,
    if_neg (lt_irrefl _), f3, hg, hu]

theorem wrap_point (C p : Nat) (hC : 0 < C) : (p + (C - p % C)) % C = 0 := by
  have h1 := Nat.mod_lt p hC
  have h2 := Nat.div_add_mod p C
  have h3 : p + (C - p % C) = C * (p / C + 1) := by
    rw [Nat.mul_add, Nat.mul_one]
    omega
  rw [h3]
  exact Nat.mul_mod_right _ _

/-- C6 as stated fails in two ways. (1) A position below the guard value is not enough:
with guard value `2 ^ 30`, capacity 1024, position `2 ^ 30 - 1` and application cursor
`2 ^ 30 + 1`, the second attempt pushes the position past the guard value, which reduces
it to 1, not to the application cursor. (2) With a frame size of zero bytes the endpoint
"accepts" the zero bytes asked for and the position does not move. -/
theorem full_acceptance_playback_counterexample :
    ((2 ^ 30 - 1 : Nat) : Int) < 2 ^ 30 ∧ 0 < (2 ^ 30 + 1) - (2 ^ 30 - 1) ∧
    (2 ^ 30 + 1) - (2 ^ 30 - 1) ≤ 1024 ∧
    (fifo_write 32 (2 ^ 30) (fun _ n => (n : Int)) 8 ⟨2 ^ 30 + 1, 0, 1024, 1⟩
      ⟨3, 1, 16000, 2, 2, 2 ^ 30 - 1⟩ 0).fifo.ptr = 1 ∧
    (fifo_write 32 (2 ^ 30) (fun _ n => (n : Int)) 8 ⟨1024, 0, 1024, 1⟩
      ⟨3, 1, 16000, 2, 0, 0⟩ 0).fifo.ptr = 0 := by
  refine ⟨by decide, by decide, by decide, by decide, by decide⟩

/-- C6, amended. Full-acceptance playback: with an endpoint that always accepts the full
requested byte count, a positive frame size, an application cursor not above the guard
value and `0 < appl_ptr - ptr <= C` at entry, one `fifo_write` invocation returns with
`ptr = appl_ptr`; it makes one attempt when the pending frames fit before the end of the
buffer and two otherwise, so exactly one when the offset at call time is 0, and two only
when the offset is non-zero. -/
theorem full_acceptance_playback (w : Nat) (thr : Int) (ep : Nat → Nat → Int) (fuel : Nat)
    (plug : Ioplug) (fifo : Fifo) (calls : Nat)
    (hfull : ∀ i n, ep i n = (n : Int))
    (hfsz : 0 < fifo.frame_bytes * plug.channels)
    (hlt : fifo.ptr < plug.appl_ptr) (hle : plug.appl_ptr ≤ fifo.ptr + plug.buffer_size)
    (hthr : (plug.appl_ptr : Int) ≤ thr) (hw : plug.appl_ptr < 2 ^ w)
    (hfuel : 2 ≤ fuel) :
    (fifo_write w thr ep fuel plug fifo calls).exit = Exit.done ∧
    (fifo_write w thr ep fuel plug fifo calls).fifo.ptr = plug.appl_ptr ∧
    (fifo_write w thr ep fuel plug fifo calls).log.length
      = (if plug.appl_ptr - fifo.ptr ≤ plug.buffer_size - fifo.ptr % plug.buffer_size
          then 1 else 2) ∧
    (fifo.ptr % plug.buffer_size = 0 →
      (fifo_write w thr ep fuel plug fifo calls).log.length = 1) ∧
    ((fifo_write w thr ep fuel plug fifo calls).log.length = 2 →
      fifo.ptr % plug.buffer_size ≠ 0) := by
  have hC : 0 < plug.buffer_size := by omega
  have hmod := Nat.mod_lt fifo.ptr hC
  have hav : fifo_write_avail w plug fifo = plug.appl_ptr - fifo.ptr := by
    unfold fifo_write_avail
    have : (plug.appl_ptr : Int) - (fifo.ptr : Int) = ((plug.appl_ptr - fifo.ptr : Nat) : Int) := by
      omega
    rw [this]
    exact to_uframes_eq w _ (by omega)
  obtain ⟨n, rfl⟩ : ∃ n, fuel = n + 2 := ⟨fuel - 2, by omega⟩
  rw [fifo_write_eq_read_loop, hav]
  rw [read_loop_full_step w thr ep plug (n + 1) fifo _ calls hfull hfsz hC (by omega) (by omega)
    (by push_cast; omega)]
  by_cases hfit : plug.appl_ptr - fifo.ptr ≤ plug.buffer_size - fifo.ptr % plug.buffer_size
  · have hch : chunk plug.buffer_size fifo.ptr (plug.appl_ptr - fifo.ptr)
        = plug.appl_ptr - fifo.ptr := by
      unfold chunk
      rw [if_neg (by omega)]
    rw [hch, Nat.sub_self, read_loop_avail_zero, if_pos hfit]
    simp only [List.length_singleton]
    refine ⟨trivial, by omega, trivial, fun _ => trivial, fun h => by omega⟩
  · have hch : chunk plug.buffer_size fifo.ptr (plug.appl_ptr - fifo.ptr)
        = plug.buffer_size - fifo.ptr % plug.buffer_size := by
      unfold chunk
      rw [if_pos (by omega)]
    rw [hch]
    have hwp := wrap_point plug.buffer_size fifo.ptr hC
    have hch2 : chunk plug.buffer_size
        (fifo.ptr + (plug.buffer_size - fifo.ptr % plug.buffer_size))
        (plug.appl_ptr - fifo.ptr - (plug.buffer_size - fifo.ptr % plug.buffer_size))
        = plug.appl_ptr - fifo.ptr - (plug.buffer_size - fifo.ptr % plug.buffer_size) := by
      unfold chunk
      rw [hwp, if_neg (by omega)]
    rw [read_loop_full_step w thr ep plug n
      { fifo with ptr := fifo.ptr + (plug.buffer_size - fifo.ptr % plug.buffer_size) }
      _ (calls + 1) hfull hfsz hC (by omega) (by omega) (by simp only; push_cast; omega)]
    simp only [hch2, Nat.sub_self, read_loop_avail_zero, if_neg hfit, List.length_cons,
      List.length_nil]
    refine ⟨trivial, by omega, trivial, fun h0 => by omega, fun _ h0 => by omega⟩

/-- C6 (amended) at the scenario of the specification: capacity 1024, two bytes per
sample, one channel, `fifo_start`, application cursor 1024, guard value `2 ^ 30`: the
position becomes 1024 after a single attempt. -/
theorem full_acceptance_playback_witness :
    (fifo_write 32 (2 ^ 30) (fun _ n => (n : Int)) 8 ⟨1024, 0, 1024, 1⟩
      (fifo_start ⟨3, 1, 16000, 2, 2, 77⟩).2 0).fifo.ptr = 1024 ∧
    (fifo_write 32 (2 ^ 30) (fun _ n => (n : Int)) 8 ⟨1024, 0, 1024, 1⟩
      (fifo_start ⟨3, 1, 16000, 2, 2, 77⟩).2 0).log.length = 1 ∧
    (fifo_write 32 (2 ^ 30) (fun _ n => (n : Int)) 8 ⟨1024, 0, 1024, 1⟩
      (fifo_start ⟨3, 1, 16000, 2, 2, 77⟩).2 0).exit = Exit.done :=
  have h := full_acceptance_playback 32 (2 ^ 30) (fun _ n => (n : Int)) 8 ⟨1024, 0, 1024, 1⟩
    (fifo_start ⟨3, 1, 16000, 2, 2, 77⟩).2 0 (fun _ _ => rfl) (by decide) (by decide)
    (by decide) (by decide) (by decide) (by decide)
  ⟨h.2.1, h.2.2.2.1 (by decide), h.1⟩

/-! ## C7: a short capture followed by EAGAIN -/

theorem fifo_eta (fifo : Fifo) : { fifo with ptr := fifo.ptr } = fifo := by
  cases fifo; rfl

/-- An invocation whose first `read`/`write` fails: at most one attempt, which is short,
the instance is untouched and the function returns. -/
theorem read_loop_eagain (w : Nat) (thr : Int) (ep : Nat → Nat → Int) (plug : Ioplug)
    (n : Nat) (fifo : Fifo) (avail calls : Nat) (hC : 0 < plug.buffer_size)
    (hneg : ∀ m, ep calls m < 0) :
    (fifo_read_loop w thr ep plug (n + 1) fifo avail calls).fifo = fifo ∧
    (fifo_read_loop w thr ep plug (n + 1) fifo avail calls).exit = Exit.done ∧
    (fifo_read_loop w thr ep plug (n + 1) fifo avail calls).log.length ≤ 1 ∧
    ∀ a ∈ (fifo_read_loop w thr ep plug (n + 1) fifo avail calls).log,
      a.ret < 0 ∧ whole_frames (fifo.frame_bytes * plug.channels) a.ret < (a.frames : Int) := by
  have hret : (next_attempt thr ep plug fifo avail calls).ret < 0 := hneg _
  have hwf : whole_frames (fifo.frame_bytes * plug.channels)
      (next_attempt thr ep plug fifo avail calls).ret
      = (next_attempt thr ep plug fifo avail calls).ret := by
    unfold whole_frames
    rw [if_neg (by omega)]
  have hnew : (next_attempt thr ep plug fifo avail calls).ptr_new = fifo.ptr := by
    have h : ¬ (ep calls (chunk plug.buffer_size fifo.ptr avail * fifo.frame_bytes
        * plug.channels) > 0) := by
      have := hneg (chunk plug.buffer_size fifo.ptr avail * fifo.frame_bytes * plug.channels)
      omega
    simp only [next_attempt, if_neg h]
  rw [fifo_read_loop_succ]
  by_cases h0 : avail = 0
  · simp [h0]
  · rw [if_neg h0, if_neg (by omega), if_neg (by omega), hwf, if_pos (by omega), hnew, fifo_eta]
    simp only [List.length_singleton, List.mem_singleton, forall_eq, le_refl, true_and]
    rw [hwf]
    exact ⟨hret, by omega⟩

/-- A stream on which every further `read`/`write` fails: the instance never changes,
every handler returns, and every invocation makes at most one attempt, a failed one. -/
theorem session_eagain (w : Nat) (thr : Int) (ep : Nat → Nat → Int) (C ch : Nat)
    (hC : 0 < C) (vs : List Invocation) : ∀ (d : Dev),
    (∀ i, d.calls ≤ i → ∀ m, ep i m < 0) → (∀ v ∈ vs, 0 < v.fuel) → d.exit = Exit.done →
    (session w thr ep C ch vs d).fifo = d.fifo ∧
    (session w thr ep C ch vs d).exit = Exit.done ∧
    ∃ rs : List (List Attempt),
      (session w thr ep C ch vs d).runs = d.runs ++ rs ∧ rs.length = vs.length ∧
      ∀ run ∈ rs, run.length ≤ 1 ∧
        ∀ a ∈ run, a.ret < 0 ∧ whole_frames (d.fifo.frame_bytes * ch) a.ret < (a.frames : Int) := by
  induction vs with
  | nil =>
    intro d _ _ hd
    exact ⟨rfl, hd, [], by simp [session], rfl, by simp⟩
  | cons v vs ih =>
    intro d hneg hfuel hd
    obtain ⟨avail, hinv⟩ := invoke_eq_loop w thr ep C ch v d
    obtain ⟨n, hn⟩ : ∃ n, v.fuel = n + 1 :=
      ⟨v.fuel - 1, by have := hfuel v (List.mem_cons_self _ _); omega⟩
    obtain ⟨e1, e2, e3, e4⟩ := read_loop_eagain w thr ep ⟨v.appl_ptr, v.hw_ptr, C, ch⟩ n d.fifo
      avail d.calls hC (hneg d.calls (le_refl _))
    rw [hn] at hinv
    simp only [session]
    rw [if_pos (by rw [hinv]; exact e2)]
    have hcalls : d.calls ≤ (invoke w thr ep C ch v d).calls := by
      rw [hinv]; simp
    have hfifo : (invoke w thr ep C ch v d).fifo = d.fifo := by
      rw [hinv]; exact e1
    obtain ⟨j1, j2, rs, j3, j4, j5⟩ := ih (invoke w thr ep C ch v d)
      (fun i hi m => hneg i (le_trans hcalls hi) m)
      (fun u hu => hfuel u (List.mem_cons_of_mem _ hu))
      (by rw [hinv]; exact e2)
    refine ⟨by rw [j1, hfifo], j2, ?_⟩
    refine ⟨(invoke w thr ep C ch v d).runs.drop d.runs.length ++ rs, ?_, ?_, ?_⟩
    · rw [j3, hinv]
      simp
    · rw [hinv]
      simp [j4]
    · intro run hrun
      rw [hinv] at hrun
      simp only [List.drop_left, List.mem_append, List.mem_singleton] at hrun
      rcases hrun with h | h
      · subst h
        exact ⟨e3, e4⟩
      · have := j5 run h
        rw [hfifo] at this
        exact this

theorem whole_frames_exact (fsz k : Nat) (ret : Int) (hfsz : 0 < fsz)
    (h1 : ((k * fsz : Nat) : Int) ≤ ret) (h2 : ret < (((k + 1) * fsz : Nat) : Int)) :
    whole_frames fsz ret = (k : Int) ∧ (if ret > 0 then (ret / (fsz : Int)).toNat else 0) = k := by
  have hpos : (0 : Int) < (fsz : Int) := by exact_mod_cast hfsz
  have hlo : (k : Int) ≤ ret / (fsz : Int) :=
    Int.le_ediv_of_mul_le hpos (by push_cast at h1; exact h1)
  have hhi : ret / (fsz : Int) < (k : Int) + 1 :=
    Int.ediv_lt_of_lt_mul hpos (by push_cast at h2; exact h2)
  have hdiv : ret / (fsz : Int) = (k : Int) := by omega
  unfold whole_frames
  by_cases hr : ret > 0
  · rw [if_pos hr, if_pos hr, hdiv]
    exact ⟨rfl, Int.toNat_ofNat k⟩
  · rw [if_neg hr, if_neg hr]
    have hk0 : k = 0 := by
      by_contra hne
      have : 0 < k * fsz := Nat.mul_pos (Nat.pos_of_ne_zero hne) hfsz
      have : (0 : Int) < ((k * fsz : Nat) : Int) := by exact_mod_cast this
      omega
    subst hk0
    simp only [Nat.zero_mul, Nat.cast_zero] at h1
    refine ⟨?_, rfl⟩
    simp only [Nat.cast_zero]
    omega

/-- The invocation in which the endpoint delivers exactly `k` whole frames, fewer than
the chunk asked for: one attempt, the position advances by `k`, the function returns. -/
theorem read_loop_short_delivery (w : Nat) (thr : Int) (ep : Nat → Nat → Int) (plug : Ioplug)
    (n : Nat) (fifo : Fifo) (avail calls k : Nat)
    (hfsz : 0 < fifo.frame_bytes * plug.channels)
    (hfirst : ∀ m, ((k * (fifo.frame_bytes * plug.channels) : Nat) : Int) ≤ ep calls m ∧
      ep calls m < (((k + 1) * (fifo.frame_bytes * plug.channels) : Nat) : Int))
    (hk : k < chunk plug.buffer_size fifo.ptr avail)
    (hthr : ((fifo.ptr + k : Nat) : Int) ≤ thr) :
    fifo_read_loop w thr ep plug (n + 1) fifo avail calls
      = ⟨{ fifo with ptr := fifo.ptr + k }, [next_attempt thr ep plug fifo avail calls],
          Exit.done⟩ ∧
    whole_frames (fifo.frame_bytes * plug.channels)
      (next_attempt thr ep plug fifo avail calls).ret
      < ((next_attempt thr ep plug fifo avail calls).frames : Int) := by
  have hfr : (next_attempt thr ep plug fifo avail calls).frames
      = chunk plug.buffer_size fifo.ptr avail := rfl
  have hle := chunk_le_avail plug.buffer_size fifo.ptr avail
  have hlc := chunk_le_cont plug.buffer_size fifo.ptr avail
  obtain ⟨b1, b2⟩ := hfirst (chunk plug.buffer_size fifo.ptr avail * fifo.frame_bytes
    * plug.channels)
  obtain ⟨x1, x2⟩ := whole_frames_exact (fifo.frame_bytes * plug.channels) k _ hfsz b1 b2
  have hret : (next_attempt thr ep plug fifo avail calls).ret
      = ep calls (chunk plug.buffer_size fifo.ptr avail * fifo.frame_bytes * plug.channels) := rfl
  have hnew : (next_attempt thr ep plug fifo avail calls).ptr_new = fifo.ptr + k := by
    simp only [next_attempt]
    rw [x2]
    split_ifs
    · unfold guarded
      rw [if_neg (by omega)]
    · have : k = 0 := by
        rw [← x2, if_neg (by assumption)]
      omega
  have hshort : whole_frames (fifo.frame_bytes * plug.channels)
      (next_attempt thr ep plug fifo avail calls).ret
      < ((next_attempt thr ep plug fifo avail calls).frames : Int) := by
    rw [hret, x1, hfr]
    exact_mod_cast hk
  refine ⟨?_, hshort⟩
  rw [fifo_read_loop_succ, if_neg (by omega), if_neg (by omega), if_neg (by omega),
    if_pos hshort, hnew]

/-- C7 as stated fails: on a capture stream with capacity 512, guard value `2 ^ 30` and
position `2 ^ 30` at entry, the endpoint delivers 100 frames (200 bytes, fewer than the
512 frames asked for) and then fails twice; the guard reduces the advanced position, which
ends at 100 instead of `2 ^ 30 + 100`. -/
theorem short_capture_then_eagain_counterexample :
    (session 32 (2 ^ 30) (fun i _ => if i = 0 then 200 else -1) 512 1
      [⟨false, 0, 0, 4⟩, ⟨false, 0, 0, 4⟩, ⟨false, 0, 0, 4⟩]
      ⟨⟨3, 1, 16000, 2, 2, 2 ^ 30⟩, 0, [], Exit.done⟩).fifo.ptr = 100 ∧
    (100 : Nat) ≠ 2 ^ 30 + 100 := by
  refine ⟨by decide, by decide⟩

/-- C7, amended. Short capture then EAGAIN: on a capture stream, if the endpoint
delivers exactly `k` whole frames on one read (`k` smaller than the chunk asked for) and
fails with a negative return on every later read, then over the
invocation that makes that read and any number of later `fifo_read` invocations the
position increases by exactly `k` in total, provided the advanced position `ptr + k` does
not exceed the guard value; every invocation returns, makes at most one attempt, and that
attempt is short (fewer whole frames than asked for, or a negative return). -/
theorem short_capture_then_eagain (w : Nat) (thr : Int) (ep : Nat → Nat → Int) (C ch : Nat)
    (fifo : Fifo) (calls k : Nat) (v : Invocation) (vs : List Invocation)
    (hfirst : ∀ m, ((k * (fifo.frame_bytes * ch) : Nat) : Int) ≤ ep calls m ∧
      ep calls m < (((k + 1) * (fifo.frame_bytes * ch) : Nat) : Int))
    (hlater : ∀ i, calls < i → ∀ m, ep i m < 0)
    (hcap : ∀ u ∈ v :: vs, u.playback = false ∧ 0 < u.fuel)
    (hk : k < chunk C fifo.ptr (fifo_read_avail w ⟨v.appl_ptr, v.hw_ptr, C, ch⟩))
    (hthr : ((fifo.ptr + k : Nat) : Int) ≤ thr) :
    (session w thr ep C ch (v :: vs) ⟨fifo, calls, [], Exit.done⟩).exit = Exit.done ∧
    (session w thr ep C ch (v :: vs) ⟨fifo, calls, [], Exit.done⟩).fifo.ptr = fifo.ptr + k ∧
    (session w thr ep C ch (v :: vs) ⟨fifo, calls, [], Exit.done⟩).runs.length
      = vs.length + 1 ∧
    ∀ run ∈ (session w thr ep C ch (v :: vs) ⟨fifo, calls, [], Exit.done⟩).runs,
      run.length ≤ 1 ∧
      ∀ a ∈ run, whole_frames (fifo.frame_bytes * ch) a.ret < (a.frames : Int) := by
  have hfsz : 0 < fifo.frame_bytes * ch := by
    apply Nat.pos_of_ne_zero
    intro h0
    have := hfirst 0
    rw [h0] at this
    simp only [Nat.mul_zero, Nat.cast_zero] at this
    omega
  have hv := hcap v (List.mem_cons_self _ _)
  obtain ⟨n, hn⟩ : ∃ n, v.fuel = n + 1 := ⟨v.fuel - 1, by omega⟩
  have hC : 0 < C := by
    have := chunk_le_cont C fifo.ptr (fifo_read_avail w ⟨v.appl_ptr, v.hw_ptr, C, ch⟩)
    omega
  obtain ⟨s1, s2⟩ := read_loop_short_delivery w thr ep ⟨v.appl_ptr, v.hw_ptr, C, ch⟩ n fifo
    (fifo_read_avail w ⟨v.appl_ptr, v.hw_ptr, C, ch⟩) calls k hfsz hfirst hk hthr
  have hinv : invoke w thr ep C ch v ⟨fifo, calls, [], Exit.done⟩
      = ⟨{ fifo with ptr := fifo.ptr + k }, calls + 1,
          [[next_attempt thr ep ⟨v.appl_ptr, v.hw_ptr, C, ch⟩ fifo
            (fifo_read_avail w ⟨v.appl_ptr, v.hw_ptr, C, ch⟩) calls]], Exit.done⟩ := by
    simp only [invoke, hv.1, fifo_read, hn]
    rw [s1]
    simp
  simp only [session]
  rw [hinv, if_pos rfl]
  obtain ⟨j1, j2, rs, j3, j4, j5⟩ := session_eagain w thr ep C ch hC vs
    ⟨{ fifo with ptr := fifo.ptr + k }, calls + 1,
      [[next_attempt thr ep ⟨v.appl_ptr, v.hw_ptr, C, ch⟩ fifo
        (fifo_read_avail w ⟨v.appl_ptr, v.hw_ptr, C, ch⟩) calls]], Exit.done⟩
    (fun i hi m => hlater i (by simp only at hi; omega) m)
    (fun u hu => (hcap u (List.mem_cons_of_mem _ hu)).2) rfl
  refine ⟨j2, by rw [j1], by rw [j3]; simp [j4], ?_⟩
  intro run hrun
  rw [j3] at hrun
  simp only [List.mem_append, List.mem_singleton] at hrun
  rcases hrun with h | h
  · subst h
    refine ⟨by simp, ?_⟩
    intro a ha
    simp only [List.mem_singleton] at ha
    subst ha
    exact s2
  · exact ⟨(j5 run h).1, fun a ha => ((j5 run h).2 a ha).2⟩

/-- C7 (amended) at the scenario of the specification: capacity 512, capture, the
endpoint returns exactly 100 frames and then EAGAIN twice: three invocations, and the
position has increased from 0 to 100. -/
theorem short_capture_then_eagain_witness :
    (session 32 (2 ^ 30) (fun i _ => if i = 0 then 200 else -1) 512 1
      [⟨false, 0, 0, 4⟩, ⟨false, 0, 0, 4⟩, ⟨false, 0, 0, 4⟩]
      ⟨⟨3, 1, 16000, 2, 2, 0⟩, 0, [], Exit.done⟩).fifo.ptr = 0 + 100 ∧
    (session 32 (2 ^ 30) (fun i _ => if i = 0 then 200 else -1) 512 1
      [⟨false, 0, 0, 4⟩, ⟨false, 0, 0, 4⟩, ⟨false, 0, 0, 4⟩]
      ⟨⟨3, 1, 16000, 2, 2, 0⟩, 0, [], Exit.done⟩).runs.length = 3 :=
  have h := short_capture_then_eagain 32 (2 ^ 30) (fun i _ => if i = 0 then 200 else -1) 512 1
    ⟨3, 1, 16000, 2, 2, 0⟩ 0 100 ⟨false, 0, 0, 4⟩ [⟨false, 0, 0, 4⟩, ⟨false, 0, 0, 4⟩]
    (fun m => by simp) (fun i hi m => by simp; omega)
    (by decide) (by decide) (by decide)
  ⟨h.2.1, h.2.2.1⟩

/-! ## C8: restart resets the position -/

/-- C8. Restart resets position: from any prior instance state, after `fifo_start`, any
sequence of transfer invocations (any endpoint, any cursors) and `fifo_stop`, a second
`fifo_start` returns 0 and leaves `fifo_pointer` reporting 0; `fifo_stop` itself
returns 0 and leaves the instance, the position counter included, unchanged. -/
theorem restart_resets_position (w : Nat) (thr : Int) (ep : Nat → Nat → Int) (C ch : Nat)
    (fifo : Fifo) (calls : Nat) (vs : List Invocation) :
    fifo_pointer (fifo_start
      (fifo_stop (session w thr ep C ch vs (started fifo calls)).fifo).2).2 = 0 ∧
    (fifo_start (fifo_stop (session w thr ep C ch vs (started fifo calls)).fifo).2).1 = 0 ∧
    (fifo_stop (session w thr ep C ch vs (started fifo calls)).fifo).1 = 0 ∧
    (fifo_stop (session w thr ep C ch vs (started fifo calls)).fifo).2.ptr
      = (session w thr ep C ch vs (started fifo calls)).fifo.ptr := by
  simp [fifo_pointer, fifo_start, fifo_stop]

/-! ## C9: closing twice -/

/-- C9 as stated fails: two invocations of `fifo_close` on an instance holding descriptor 3
issue `close(3)` twice. -/
theorem idempotent_close_counterexample :
    (fifo_close (fifo_close ⟨3, 1, 16000, 2, 2, 0⟩ []).2.1
      (fifo_close ⟨3, 1, 16000, 2, 2, 0⟩ []).2.2).2.2 = [Syscall.close 3, Syscall.close 3] ∧
    List.count (Syscall.close 3)
      (fifo_close (fifo_close ⟨3, 1, 16000, 2, 2, 0⟩ []).2.1
        (fifo_close ⟨3, 1, 16000, 2, 2, 0⟩ []).2.2).2.2 ≠ 1 := by
  refine ⟨by decide, by decide⟩

/-- C9, amended. Every invocation of `fifo_close` issues exactly one `close` on the stored
descriptor, returns 0 and leaves the instance (the stored descriptor included) unchanged;
so invoking it twice on the same instance issues `close` on that descriptor twice. -/
theorem close_issues_one_release_each (fifo : Fifo) (sys : List Syscall) :
    fifo_close fifo sys = (0, fifo, sys ++ [Syscall.close fifo.fd]) ∧
    (fifo_close (fifo_close fifo sys).2.1 (fifo_close fifo sys).2.2).1 = 0 ∧
    (fifo_close (fifo_close fifo sys).2.1 (fifo_close fifo sys).2.2).2.1 = fifo ∧
    (fifo_close (fifo_close fifo sys).2.1 (fifo_close fifo sys).2.2).2.2
      = sys ++ [Syscall.close fifo.fd, Syscall.close fifo.fd] ∧
    List.count (Syscall.close fifo.fd)
      (fifo_close (fifo_close fifo sys).2.1 (fifo_close fifo sys).2.2).2.2
      = List.count (Syscall.close fifo.fd) sys + 2 := by
  simp [fifo_close]

/-! ## C10: a failed transfer is not an error -/

theorem read_loop_negative_stops (w : Nat) (thr : Int) (ep : Nat → Nat → Int) (plug : Ioplug)
    (n : Nat) : ∀ (fifo : Fifo) (avail calls : Nat) (k : Nat) (a : Attempt),
      (fifo_read_loop w thr ep plug n fifo avail calls).log[k]? = some a → a.ret < 0 →
      (fifo_read_loop w thr ep plug n fifo avail calls).log.length = k + 1 ∧
      (fifo_read_loop w thr ep plug n fifo avail calls).fifo.ptr = a.ptr ∧
      a.ptr_new = a.ptr ∧
      (fifo_read_loop w thr ep plug n fifo avail calls).exit = Exit.done := by
  induction n with
  | zero =>
    intro fifo avail calls k a hk
    simp [fifo_read_loop] at hk
  | succ n ih =>
    intro fifo avail calls k a hk hneg
    have hnew : (next_attempt thr ep plug fifo avail calls).ret < 0 →
        (next_attempt thr ep plug fifo avail calls).ptr_new = fifo.ptr := by
      intro h
      have h2 : ¬ (ep calls (chunk plug.buffer_size fifo.ptr avail * fifo.frame_bytes
          * plug.channels) > 0) := by
        have : (next_attempt thr ep plug fifo avail calls).ret
          = ep calls (chunk plug.buffer_size fifo.ptr avail * fifo.frame_bytes
              * plug.channels) := rfl
        omega
      simp only [next_attempt, if_neg h2]
    rw [fifo_read_loop_succ] at hk ⊢
    split_ifs at hk ⊢ with h1 h2 h3 h4
    · simp at hk
    · simp at hk
    · cases k with
      | zero =>
        simp only [List.getElem?_cons_zero, Option.some.injEq] at hk
        subst hk
        simp only at hneg
        omega
      | succ k => simp at hk
    · cases k with
      | zero =>
        simp only [List.getElem?_cons_zero, Option.some.injEq] at hk
        subst hk
        exact ⟨rfl, hnew hneg, hnew hneg, rfl⟩
      | succ k => simp at hk
    · cases k with
      | zero =>
        simp only [List.getElem?_cons_zero, Option.some.injEq] at hk
        subst hk
        exfalso
        apply h4
        unfold whole_frames
        rw [if_neg (by omega)]
        omega
      | succ k =>
        simp only [List.getElem?_cons_succ] at hk
        have := ih _ _ _ k a hk hneg
        simpa using this

/-- C10. Transfer failure is not an error: the readiness handlers store the readiness
flags of `pfds[0]` unchanged and run the transfer; when a `read`/`write` inside the
transfer returns a negative value, that attempt is the last one of the invocation (the
loop exits at once), the position counter ends with the value it had before that
attempt, the transfer returns and the handler returns 0. -/
theorem transfer_failure_not_error (w : Nat) (thr : Int) (ep : Nat → Nat → Int) (fuel : Nat)
    (plug : Ioplug) (fifo : Fifo) (calls : Nat) (p : Pollfd) (rest : List Pollfd)
    (k : Nat) (a : Attempt) :
    ((fifo_read_poll_revents w thr ep fuel plug fifo calls (p :: rest)).map PollResult.revents
        = some p.revents ∧
      (fifo_read_poll_revents w thr ep fuel plug fifo calls (p :: rest)).map PollResult.run
        = some (fifo_read w thr ep fuel plug fifo calls) ∧
      ((fifo_read w thr ep fuel plug fifo calls).log[k]? = some a → a.ret < 0 →
        (fifo_read w thr ep fuel plug fifo calls).log.length = k + 1 ∧
        (fifo_read w thr ep fuel plug fifo calls).fifo.ptr = a.ptr ∧
        (fifo_read w thr ep fuel plug fifo calls).exit = Exit.done ∧
        (fifo_read_poll_revents w thr ep fuel plug fifo calls (p :: rest)).map PollResult.ret
          = some (some 0))) ∧
    ((fifo_write_poll_revents w thr ep fuel plug fifo calls (p :: rest)).map PollResult.revents
        = some p.revents ∧
      (fifo_write_poll_revents w thr ep fuel plug fifo calls (p :: rest)).map PollResult.run
        = some (fifo_write w thr ep fuel plug fifo calls) ∧
      ((fifo_write w thr ep fuel plug fifo calls).log[k]? = some a → a.ret < 0 →
        (fifo_write w thr ep fuel plug fifo calls).log.length = k + 1 ∧
        (fifo_write w thr ep fuel plug fifo calls).fifo.ptr = a.ptr ∧
        (fifo_write w thr ep fuel plug fifo calls).exit = Exit.done ∧
        (fifo_write_poll_revents w thr ep fuel plug fifo calls (p :: rest)).map PollResult.ret
          = some (some 0))) := by
  constructor
  · refine ⟨rfl, rfl, ?_⟩
    intro hk hneg
    have hk2 := hk
    simp only [fifo_read] at hk2
    obtain ⟨g1, g2, _, g4⟩ :=
      read_loop_negative_stops w thr ep plug fuel fifo _ calls k a hk2 hneg
    have g4b : (fifo_read w thr ep fuel plug fifo calls).exit = Exit.done := g4
    refine ⟨g1, g2, g4, ?_⟩
    simp only [fifo_read_poll_revents, Option.map_some', if_pos g4b]
  · refine ⟨rfl, rfl, ?_⟩
    intro hk hneg
    have hk2 := hk
    rw [fifo_write_eq_read_loop] at hk2
    obtain ⟨g1, g2, _, g4⟩ :=
      read_loop_negative_stops w thr ep plug fuel fifo _ calls k a hk2 hneg
    have g4b : (fifo_write w thr ep fuel plug fifo calls).exit = Exit.done := by
      rw [fifo_write_eq_read_loop]; exact g4
    rw [fifo_write_eq_read_loop]
    refine ⟨g1, g2, g4, ?_⟩
    simp only [fifo_write_poll_revents, Option.map_some', if_pos g4b]

/-- C10 at a concrete input: capacity 4, position 2, four frames pending; the first
attempt transfers 2 frames, the second fails with -1: two attempts, the position stays
at 4, the handlers return 0 and report the flags they were given. -/
theorem transfer_failure_not_error_witness :
    ((fifo_read_poll_revents 64 (2 ^ 30) (fun i n => if i = 0 then (n : Int) else -1) 8
        ⟨6, 2, 4, 1⟩ ⟨3, 1, 16000, 2, 2, 2⟩ 0 [⟨3, 1, 9⟩]).map PollResult.revents = some 9 ∧
      (fifo_read 64 (2 ^ 30) (fun i n => if i = 0 then (n : Int) else -1) 8
        ⟨6, 2, 4, 1⟩ ⟨3, 1, 16000, 2, 2, 2⟩ 0).log.length = 1 + 1 ∧
      (fifo_read 64 (2 ^ 30) (fun i n => if i = 0 then (n : Int) else -1) 8
        ⟨6, 2, 4, 1⟩ ⟨3, 1, 16000, 2, 2, 2⟩ 0).fifo.ptr = 4 ∧
      (fifo_read_poll_revents 64 (2 ^ 30) (fun i n => if i = 0 then (n : Int) else -1) 8
        ⟨6, 2, 4, 1⟩ ⟨3, 1, 16000, 2, 2, 2⟩ 0 [⟨3, 1, 9⟩]).map PollResult.ret
        = some (some 0)) ∧
    ((fifo_write 64 (2 ^ 30) (fun i n => if i = 0 then (n : Int) else -1) 8
        ⟨6, 2, 4, 1⟩ ⟨3, 1, 16000, 2, 2, 2⟩ 0).fifo.ptr = 4 ∧
      (fifo_write_poll_revents 64 (2 ^ 30) (fun i n => if i = 0 then (n : Int) else -1) 8
        ⟨6, 2, 4, 1⟩ ⟨3, 1, 16000, 2, 2, 2⟩ 0 [⟨3, 1, 9⟩]).map PollResult.ret
        = some (some 0)) :=
  have h := transfer_failure_not_error 64 (2 ^ 30)
    (fun i n => if i = 0 then (n : Int) else -1) 8
    ⟨6, 2, 4, 1⟩ ⟨3, 1, 16000, 2, 2, 2⟩ 0 ⟨3, 1, 9⟩ [] 1 ⟨4, 0, 4, 8, -1, 4, 4⟩
  have g := transfer_failure_not_error 64 (2 ^ 30)
    (fun i n => if i = 0 then (n : Int) else -1) 8
    ⟨6, 2, 4, 1⟩ ⟨3, 1, 16000, 2, 2, 2⟩ 0 ⟨3, 1, 9⟩ [] 1 ⟨4, 0, 2, 4, -1, 4, 4⟩
  have hr := h.1.2.2 (by decide) (by decide)
  have hw := g.2.2.2 (by decide) (by decide)
  ⟨⟨h.1.1, hr.1, hr.2.1, hr.2.2.2⟩, ⟨hw.2.1, hw.2.2.2⟩⟩

/-! ## C11: capability declaration -/

theorem fifo_hw_constraint_eq (host : List Decl → Decl → Int) (fifo : Fifo) :
    fifo_hw_constraint host fifo
      = declare_in_order host [] (declared_capabilities_unsigned fifo) := by
  simp only [fifo_hw_constraint, declared_capabilities_unsigned, declared_capabilities,
    declare_in_order, List.nil_append, List.cons_append]
  norm_num

theorem to_uint_of_range (x : Int) (h0 : 0 ≤ x) (h1 : x < 2 ^ 32) : to_uint x = x := by
  unfold to_uint
  exact Int.emod_eq_of_lt h0 (by simpa [INT_BITS] using h1)

theorem to_uint_of_neg (x : Int) (h0 : x < 0) (h1 : -(2 ^ 32) ≤ x) :
    to_uint x = x + 2 ^ 32 := by
  unfold to_uint
  have h : ((2 ^ INT_BITS : Nat) : Int) = 2 ^ 32 := by simp [INT_BITS]
  rw [h, ← Int.add_emod_self]
  exact Int.emod_eq_of_lt (by omega) (by omega)

theorem declare_in_order_zero_iff (host : List Decl → Decl → Int) (ds : List Decl) :
    ∀ done : List Decl, (declare_in_order host done ds).1 = 0 ↔
      ∀ (i : Nat) (d : Decl), ds[i]? = some d → 0 ≤ host (done ++ ds.take i) d := by
  induction ds with
  | nil => intro done; simp [declare_in_order]
  | cons d ds ih =>
    intro done
    simp only [declare_in_order]
    split_ifs with h
    · constructor
      · intro h0
        simp only at h0
        omega
      · intro hall
        have := hall 0 d (by simp)
        simp at this
        omega
    · rw [ih]
      constructor
      · intro hall i e hi
        cases i with
        | zero =>
          simp at hi
          subst hi
          simp
          omega
        | succ i =>
          simp at hi
          have := hall i e hi
          simpa using this
      · intro hall i e hi
        have := hall (i + 1) e (by simpa using hi)
        simpa using this

theorem declare_in_order_first_rejected (host : List Decl → Decl → Int) (ds : List Decl) :
    ∀ (done : List Decl) (j : Nat) (d : Decl), ds[j]? = some d →
      (∀ (i : Nat) (e : Decl), i < j → ds[i]? = some e → 0 ≤ host (done ++ ds.take i) e) →
      host (done ++ ds.take j) d < 0 →
      declare_in_order host done ds = (host (done ++ ds.take j) d, done ++ ds.take (j + 1)) := by
  induction ds with
  | nil => intro done j d hj; simp at hj
  | cons d0 ds ih =>
    intro done j d hj hacc hrej
    cases j with
    | zero =>
      simp at hj
      subst hj
      simp at hrej
      simp [declare_in_order, hrej]
    | succ j =>
      simp at hj
      have h0 := hacc 0 d0 (by omega) (by simp)
      simp at h0
      simp only [declare_in_order]
      rw [if_neg (by omega)]
      have := ih (done ++ [d0]) j d hj
        (fun i e hi he => by
          have := hacc (i + 1) e (by omega) (by simpa using he)
          simpa using this)
        (by simpa using hrej)
      simpa using this

theorem declare_in_order_all_accepted (host : List Decl → Decl → Int) (ds : List Decl) :
    ∀ done : List Decl,
      (∀ (i : Nat) (d : Decl), ds[i]? = some d → 0 ≤ host (done ++ ds.take i) d) →
      declare_in_order host done ds = (0, done ++ ds) := by
  induction ds with
  | nil => intro done _; simp [declare_in_order]
  | cons d ds ih =>
    intro done hall
    have h0 := hall 0 d (by simp)
    simp at h0
    simp only [declare_in_order]
    rw [if_neg (by omega)]
    have := ih (done ++ [d]) (fun i e hi => by
      have := hall (i + 1) e (by simpa using hi)
      simpa using this)
    simpa using this

/-- C11 as stated fails: the host interface takes `unsigned int` values, so an instance
configured with channel count -1 and the unknown format -1 (what the entry point builds
from `channels -1` and a format name that `snd_pcm_format_value` does not know) declares
format 4294967295 and channels with min = max = 4294967295, not the configured values. -/
theorem capability_declaration_counterexample :
    (snd_pcm_fifo_open ⟨fun _ => -1, fun _ => -22, fun _ => 3, true, 0, fun _ _ => 0⟩
        PcmStream.PLAYBACK
        [⟨some "file", some "/tmp/f", none⟩, ⟨some "format", some "bogus", none⟩,
          ⟨some "channels", none, some (-1)⟩]).2.2
      = some ⟨3, -1, 16000, -1, 4294967294, 0⟩ ∧
    (fifo_hw_constraint (fun _ _ => 0) ⟨3, -1, 16000, -1, 4294967294, 0⟩).2
      = [Decl.list HwParam.ACCESS [3, 0], Decl.list HwParam.FORMAT [4294967295],
          Decl.minmax HwParam.CHANNELS 4294967295 4294967295,
          Decl.minmax HwParam.RATE 16000 16000,
          Decl.minmax HwParam.BUFFER_BYTES 256 4194304,
          Decl.minmax HwParam.PERIOD_BYTES 128 2097152,
          Decl.minmax HwParam.PERIODS 3 1024] ∧
    (fifo_hw_constraint (fun _ _ => 0) ⟨3, -1, 16000, -1, 4294967294, 0⟩).2
      ≠ declared_capabilities ⟨3, -1, 16000, -1, 4294967294, 0⟩ := by
  refine ⟨by decide, by decide, by decide⟩

/-- C11, amended. Capability declaration: `fifo_hw_constraint` declares, in this order,
the access modes {RW_INTERLEAVED, MMAP_INTERLEAVED}, the single configured format,
channels and rate with min = max = the configured value, buffer bytes in [256, 4 Mi],
period bytes in [128, 2 Mi] and period count in [3, 1024], each after the previous one was
accepted, where the configured format, channel count and rate are converted to
`unsigned int` (the configured value itself when it is not negative, the value plus
`2 ^ 32` when it is negative). It returns 0 exactly when the host accepts (status not
negative) all seven, in which case all seven were made; otherwise it returns the negative
status of the first rejected declaration and has made the declarations up to and
including that one, and none after. -/
theorem capability_declaration (host : List Decl → Decl → Int) (fifo : Fifo) :
    fifo_hw_constraint host fifo
      = declare_in_order host [] (declared_capabilities_unsigned fifo) ∧
    ((fifo_hw_constraint host fifo).1 = 0 ↔
      ∀ (i : Nat) (d : Decl), (declared_capabilities_unsigned fifo)[i]? = some d →
        0 ≤ host ((declared_capabilities_unsigned fifo).take i) d) ∧
    ((∀ (i : Nat) (d : Decl), (declared_capabilities_unsigned fifo)[i]? = some d →
        0 ≤ host ((declared_capabilities_unsigned fifo).take i) d) →
      fifo_hw_constraint host fifo = (0, declared_capabilities_unsigned fifo)) ∧
    (∀ (j : Nat) (d : Decl), (declared_capabilities_unsigned fifo)[j]? = some d →
      (∀ (i : Nat) (e : Decl), i < j → (declared_capabilities_unsigned fifo)[i]? = some e →
        0 ≤ host ((declared_capabilities_unsigned fifo).take i) e) →
      host ((declared_capabilities_unsigned fifo).take j) d < 0 →
      fifo_hw_constraint host fifo
        = (host ((declared_capabilities_unsigned fifo).take j) d,
            (declared_capabilities_unsigned fifo).take (j + 1))) ∧
    declared_capabilities_unsigned fifo
      = [Decl.list HwParam.ACCESS
            [SND_PCM_ACCESS_RW_INTERLEAVED, SND_PCM_ACCESS_MMAP_INTERLEAVED],
         Decl.list HwParam.FORMAT [to_uint fifo.format],
         Decl.minmax HwParam.CHANNELS (to_uint fifo.channels) (to_uint fifo.channels),
         Decl.minmax HwParam.RATE (to_uint fifo.rate) (to_uint fifo.rate),
         Decl.minmax HwParam.BUFFER_BYTES 256 4194304,
         Decl.minmax HwParam.PERIOD_BYTES 128 2097152,
         Decl.minmax HwParam.PERIODS 3 1024] ∧
    (∀ x : Int, (0 ≤ x → x < 2 ^ 32 → to_uint x = x) ∧
      (x < 0 → -(2 ^ 32) ≤ x → to_uint x = x + 2 ^ 32)) ∧
    (0 ≤ fifo.format → fifo.format < 2 ^ 32 → 0 ≤ fifo.channels → fifo.channels < 2 ^ 32 →
      0 ≤ fifo.rate → fifo.rate < 2 ^ 32 →
      declared_capabilities_unsigned fifo = declared_capabilities fifo) := by
  have heq := fifo_hw_constraint_eq host fifo
  refine ⟨heq, ?_, ?_, ?_, rfl, ?_, ?_⟩
  · rw [heq]
    simpa using declare_in_order_zero_iff host (declared_capabilities_unsigned fifo) []
  · intro hall
    rw [heq]
    simpa using declare_in_order_all_accepted host (declared_capabilities_unsigned fifo) []
      (by simpa using hall)
  · intro j d hj hacc hrej
    rw [heq]
    simpa using declare_in_order_first_rejected host (declared_capabilities_unsigned fifo) []
      j d hj (by simpa using hacc) (by simpa using hrej)
  · intro x
    exact ⟨to_uint_of_range x, to_uint_of_neg x⟩
  · intro f0 f1 c0 c1 r0 r1
    simp only [declared_capabilities_unsigned, declared_capabilities,
      to_uint_of_range _ f0 f1, to_uint_of_range _ c0 c1, to_uint_of_range _ r0 r1]

/-- C11 (amended) at a concrete input: format 2, one channel, 16000 Hz, a host that accepts
the access modes and the format and rejects the channel count with -22: the function
returns -22 after three declarations; a host that accepts everything gets all seven, which
are the configured values themselves. -/
theorem capability_declaration_witness :
    fifo_hw_constraint (fun done _ => if done.length = 2 then -22 else 0)
        ⟨3, 1, 16000, 2, 2, 0⟩
      = (-22, [Decl.list HwParam.ACCESS [3, 0], Decl.list HwParam.FORMAT [2],
                Decl.minmax HwParam.CHANNELS 1 1]) ∧
    fifo_hw_constraint (fun _ _ => 0) ⟨3, 1, 16000, 2, 2, 0⟩
      = (0, [Decl.list HwParam.ACCESS [3, 0], Decl.list HwParam.FORMAT [2],
              Decl.minmax HwParam.CHANNELS 1 1, Decl.minmax HwParam.RATE 16000 16000,
              Decl.minmax HwParam.BUFFER_BYTES 256 4194304,
              Decl.minmax HwParam.PERIOD_BYTES 128 2097152,
              Decl.minmax HwParam.PERIODS 3 1024]) ∧
    declared_capabilities_unsigned ⟨3, 1, 16000, 2, 2, 0⟩
      = declared_capabilities ⟨3, 1, 16000, 2, 2, 0⟩ :=
  ⟨(capability_declaration (fun done _ => if done.length = 2 then -22 else 0)
      ⟨3, 1, 16000, 2, 2, 0⟩).2.2.2.1 2 (Decl.minmax HwParam.CHANNELS 1 1) (by decide)
      (by intro i e hi he; interval_cases i <;>
            simp [declared_capabilities_unsigned, declared_capabilities]) (by decide),
   (capability_declaration (fun _ _ => 0) ⟨3, 1, 16000, 2, 2, 0⟩).2.2.1
      (by intro i d _; exact le_refl _),
   (capability_declaration (fun _ _ => 0) ⟨3, 1, 16000, 2, 2, 0⟩).2.2.2.2.2.2
      (by decide) (by decide) (by decide) (by decide) (by decide) (by decide)⟩

/-! ## C12: configuration errors come before any resource -/

theorem fifo_conf_error (fv : String → Int) (conf : List ConfNode) :
    ∀ (s : Settings) (e : Int), fifo_conf fv conf s = Except.error e → e = -EINVAL := by
  induction conf with
  | nil => intro s e h; simp [fifo_conf] at h
  | cons n rest ih =>
    intro s e h
    simp only [fifo_conf] at h
    split at h
    · exact ih _ _ h
    · split_ifs at h <;> (try split at h) <;>
        first
          | exact ih _ _ h
          | (simp only [Except.error.injEq] at h; exact h.symm)

theorem fifo_conf_wrong_type (fv : String → Int) (conf : List ConfNode) :
    ∀ (s : Settings), (∃ n ∈ conf, wrong_type n) →
      fifo_conf fv conf s = Except.error (-EINVAL) := by
  induction conf with
  | nil => intro s h; simp at h
  | cons n rest ih =>
    intro s h
    have hrest : ¬ wrong_type n → ∃ m ∈ rest, wrong_type m := by
      intro hn
      obtain ⟨m, hm, hw⟩ := h
      rcases List.mem_cons.mp hm with rfl | hm
      · exact absurd hw hn
      · exact ⟨m, hm, hw⟩
    simp only [fifo_conf]
    split
    · rename_i hid
      exact ih _ (hrest (by simp [wrong_type, hid]))
    · rename_i id hid
      split_ifs with h1 h2 h3 h4 h5
      · split
        · rfl
        · exact ih _ (hrest (by simp_all [wrong_type]))
      · split
        · rfl
        · exact ih _ (hrest (by simp_all [wrong_type]))
      · split
        · rfl
        · exact ih _ (hrest (by simp_all [wrong_type]))
      · split
        · rfl
        · exact ih _ (hrest (by simp_all [wrong_type]))
      · split
        · rfl
        · exact ih _ (hrest (by simp_all [wrong_type]))
      · exact ih _ (hrest (by simp_all [wrong_type]))

theorem fifo_conf_file (fv : String → Int) (conf : List ConfNode) :
    ∀ (s t : Settings), (∀ n ∈ conf, n.id ≠ some "file") →
      fifo_conf fv conf s = Except.ok t → t.file = s.file := by
  induction conf with
  | nil => intro s t _ h; simp [fifo_conf] at h; rw [h]
  | cons n rest ih =>
    intro s t hno h
    have hn := hno n (List.mem_cons_self _ _)
    have hr : ∀ m ∈ rest, m.id ≠ some "file" := fun m hm => hno m (List.mem_cons_of_mem _ hm)
    simp only [fifo_conf] at h
    split at h
    · exact ih _ _ hr h
    · rename_i id hid
      split_ifs at h with h1 <;> (try split at h) <;>
        first
          | (exfalso; apply hn; rw [hid, h1])
          | exact absurd h (by simp)
          | (have h9 := ih _ _ hr h; exact h9)

theorem fifo_conf_infile (fv : String → Int) (conf : List ConfNode) :
    ∀ (s t : Settings), (∀ n ∈ conf, n.id ≠ some "infile") →
      fifo_conf fv conf s = Except.ok t → t.infile = s.infile := by
  induction conf with
  | nil => intro s t _ h; simp [fifo_conf] at h; rw [h]
  | cons n rest ih =>
    intro s t hno h
    have hn := hno n (List.mem_cons_self _ _)
    have hr : ∀ m ∈ rest, m.id ≠ some "infile" :=
      fun m hm => hno m (List.mem_cons_of_mem _ hm)
    simp only [fifo_conf] at h
    split at h
    · exact ih _ _ hr h
    · rename_i id hid
      split_ifs at h with h1 h2 <;> (try split at h) <;>
        first
          | (exfalso; apply hn; rw [hid, h2])
          | exact absurd h (by simp)
          | (have h9 := ih _ _ hr h; exact h9)

/-- C12. Configuration errors precede any resource: the entry point returns `-EINVAL`
without opening the endpoint, allocating a device instance or asking anything else of its
surroundings whenever the direction is playback and no `file` node is configured, the
direction is capture and no `infile` node is configured, or some `file`, `infile`,
`rate`, `format` or `channels` node has the wrong type. -/
theorem configuration_errors_first (wd : World) (stream : PcmStream) (conf : List ConfNode)
    (h : (stream = PcmStream.PLAYBACK ∧ ∀ n ∈ conf, n.id ≠ some "file") ∨
      (stream = PcmStream.CAPTURE ∧ ∀ n ∈ conf, n.id ≠ some "infile") ∨
      (∃ n ∈ conf, wrong_type n)) :
    snd_pcm_fifo_open wd stream conf = (-EINVAL, [], none) := by
  unfold snd_pcm_fifo_open
  cases hc : fifo_conf wd.format_value conf ⟨none, none, SND_PCM_FORMAT_S16_LE, 16000, 1⟩ with
  | error e =>
    have := fifo_conf_error _ _ _ _ hc
    simp only [this]
  | ok s =>
    rcases h with ⟨hs, hno⟩ | ⟨hs, hno⟩ | hw
    · have hf := fifo_conf_file _ _ _ _ hno hc
      simp only at hf
      simp only [hs, if_true, hf]
    · have hf := fifo_conf_infile _ _ _ _ hno hc
      simp only at hf
      simp only [hs, hf]
      rfl
    · rw [fifo_conf_wrong_type _ _ _ hw] at hc
      exact absurd hc (by simp)

/-- C12 at concrete inputs: a capture stream configured with `file` only, a playback
stream configured with `infile` only, and a playback stream whose `rate` is a string. -/
theorem configuration_errors_first_witness :
    snd_pcm_fifo_open ⟨fun _ => 2, fun _ => 16, fun _ => 3, true, 0, fun _ _ => 0⟩
        PcmStream.CAPTURE [⟨some "file", some "/tmp/f", none⟩] = (-EINVAL, [], none) ∧
    snd_pcm_fifo_open ⟨fun _ => 2, fun _ => 16, fun _ => 3, true, 0, fun _ _ => 0⟩
        PcmStream.PLAYBACK [⟨some "infile", some "/tmp/f", none⟩] = (-EINVAL, [], none) ∧
    snd_pcm_fifo_open ⟨fun _ => 2, fun _ => 16, fun _ => 3, true, 0, fun _ _ => 0⟩
        PcmStream.PLAYBACK [⟨some "file", some "/tmp/f", none⟩, ⟨some "rate", some "x", none⟩]
      = (-EINVAL, [], none) :=
  ⟨configuration_errors_first _ _ _ (Or.inr (Or.inl ⟨rfl, by decide⟩)),
   configuration_errors_first _ _ _ (Or.inl ⟨rfl, by decide⟩),
   configuration_errors_first _ _ _ (Or.inr (Or.inr (by decide)))⟩

/-! ## C13: contiguous-run splitting -/

theorem chunk_eq_min (C p avail : Nat) : chunk C p avail = min avail (C - p % C) := by
  unfold chunk
  split_ifs <;> omega

/-- The fields of the attempt of one iteration. -/
theorem next_attempt_shape (thr : Int) (ep : Nat → Nat → Int) (plug : Ioplug) (fifo : Fifo)
    (avail calls : Nat) (hC : plug.buffer_size ≠ 0) (hav : avail ≠ 0) :
    (next_attempt thr ep plug fifo avail calls).ptr = fifo.ptr ∧
    (next_attempt thr ep plug fifo avail calls).offset = fifo.ptr % plug.buffer_size ∧
    (next_attempt thr ep plug fifo avail calls).frames
      = min avail (plug.buffer_size - fifo.ptr % plug.buffer_size) ∧
    (next_attempt thr ep plug fifo avail calls).count
      = (next_attempt thr ep plug fifo avail calls).frames * fifo.frame_bytes * plug.channels ∧
    (next_attempt thr ep plug fifo avail calls).offset < plug.buffer_size ∧
    1 ≤ (next_attempt thr ep plug fifo avail calls).frames ∧
    (next_attempt thr ep plug fifo avail calls).offset
      + (next_attempt thr ep plug fifo avail calls).frames ≤ plug.buffer_size := by
  have hmod := Nat.mod_lt fifo.ptr (Nat.pos_of_ne_zero hC)
  have hch := chunk_eq_min plug.buffer_size fifo.ptr avail
  have hfr : (next_attempt thr ep plug fifo avail calls).frames
      = chunk plug.buffer_size fifo.ptr avail := rfl
  have hoff : (next_attempt thr ep plug fifo avail calls).offset
      = fifo.ptr % plug.buffer_size := rfl
  refine ⟨rfl, rfl, by rw [hfr, hch], rfl, by omega, by omega, by omega⟩

/-- Every attempt of a run starts inside the buffer and asks for a non-empty chunk that
ends at or before the end of the buffer; the byte count is the chunk in bytes. -/
theorem read_loop_attempt_bounds (w : Nat) (thr : Int) (ep : Nat → Nat → Int) (plug : Ioplug)
    (fb : Nat) (n : Nat) : ∀ (fifo : Fifo) (avail calls : Nat), fifo.frame_bytes = fb →
    ∀ a ∈ (fifo_read_loop w thr ep plug n fifo avail calls).log,
      a.offset = a.ptr % plug.buffer_size ∧ a.offset < plug.buffer_size ∧ 1 ≤ a.frames ∧
      a.frames ≤ plug.buffer_size - a.offset ∧ a.offset + a.frames ≤ plug.buffer_size ∧
      a.count = a.frames * fb * plug.channels := by
  induction n with
  | zero => intro fifo avail calls _ a ha; simp [fifo_read_loop] at ha
  | succ n ih =>
    intro fifo avail calls hfb a ha
    subst hfb
    rw [fifo_read_loop_succ] at ha
    split_ifs at ha with h1 h2 h3 h4
    · simp at ha
    · simp at ha
    · obtain ⟨s1, s2, s3, s4, s5, s6, s7⟩ := next_attempt_shape thr ep plug fifo avail calls h2 h1
      simp only [List.mem_singleton] at ha
      subst ha
      simp only
      rw [← s1] at s2
      exact ⟨s2, s5, s6, by omega, s7, s4⟩
    · obtain ⟨s1, s2, s3, s4, s5, s6, s7⟩ := next_attempt_shape thr ep plug fifo avail calls h2 h1
      simp only [List.mem_singleton] at ha
      subst ha
      rw [← s1] at s2
      exact ⟨s2, s5, s6, by omega, s7, s4⟩
    · obtain ⟨s1, s2, s3, s4, s5, s6, s7⟩ := next_attempt_shape thr ep plug fifo avail calls h2 h1
      simp only [List.mem_cons] at ha
      rcases ha with ha | ha
      · subst ha
        rw [← s1] at s2
        exact ⟨s2, s5, s6, by omega, s7, s4⟩
      · exact ih { fifo with ptr := (next_attempt thr ep plug fifo avail calls).ptr_new }
          _ _ rfl a ha

/-- The first attempt of a loop entered with `avail > 0` frames. -/
theorem read_loop_head (w : Nat) (thr : Int) (ep : Nat → Nat → Int) (plug : Ioplug)
    (n : Nat) (fifo : Fifo) (avail calls : Nat) (hC : 0 < plug.buffer_size) (hav : 0 < avail) :
    ((fifo_read_loop w thr ep plug (n + 1) fifo avail calls).log.head?).map
        (fun a => (a.ptr, a.offset, a.frames, a.count))
      = some (fifo.ptr, fifo.ptr % plug.buffer_size,
          min avail (plug.buffer_size - fifo.ptr % plug.buffer_size),
          min avail (plug.buffer_size - fifo.ptr % plug.buffer_size)
            * fifo.frame_bytes * plug.channels) := by
  obtain ⟨s1, s2, s3, s4, _, _, _⟩ :=
    next_attempt_shape thr ep plug fifo avail calls (by omega) (by omega)
  rw [fifo_read_loop_succ, if_neg (by omega), if_neg (by omega)]
  split_ifs <;> simp [s1, s2, s3, s4]

/-- C13. Contiguous-run splitting: for every capacity `C > 0`, every position and every
`avail > 0`, the attempt made by an iteration of the loop of `fifo_read` / `fifo_write`
entered in that state uses `offset = ptr mod C` and `chunk = min(avail, C - offset)` and
asks for `chunk * frame_bytes * channels` bytes; and every attempt of a whole invocation
has `offset = ptr mod C` with `0 <= offset < C` and `1 <= chunk <= C - offset`, so the frame
range `[offset, offset + chunk)` never crosses the end of the circular buffer, and its
byte count is `chunk * frame_bytes * channels`. -/
theorem contiguous_run_splitting (w : Nat) (thr : Int) (ep : Nat → Nat → Int) (plug : Ioplug)
    (n : Nat) (fifo : Fifo) (avail calls : Nat)
    (hC : 0 < plug.buffer_size) (hav : 0 < avail) :
    ((fifo_read_loop w thr ep plug (n + 1) fifo avail calls).log.head?).map
        (fun a => (a.ptr, a.offset, a.frames, a.count))
      = some (fifo.ptr, fifo.ptr % plug.buffer_size,
          min avail (plug.buffer_size - fifo.ptr % plug.buffer_size),
          min avail (plug.buffer_size - fifo.ptr % plug.buffer_size)
            * fifo.frame_bytes * plug.channels) ∧
    ((fifo_write_loop w thr ep plug (n + 1) fifo avail calls).log.head?).map
        (fun a => (a.ptr, a.offset, a.frames, a.count))
      = some (fifo.ptr, fifo.ptr % plug.buffer_size,
          min avail (plug.buffer_size - fifo.ptr % plug.buffer_size),
          min avail (plug.buffer_size - fifo.ptr % plug.buffer_size)
            * fifo.frame_bytes * plug.channels) ∧
    (∀ a ∈ (fifo_read w thr ep n plug fifo calls).log,
      a.offset = a.ptr % plug.buffer_size ∧ a.offset < plug.buffer_size ∧ 1 ≤ a.frames ∧
      a.frames ≤ plug.buffer_size - a.offset ∧ a.offset + a.frames ≤ plug.buffer_size ∧
      a.count = a.frames * fifo.frame_bytes * plug.channels) ∧
    (∀ a ∈ (fifo_write w thr ep n plug fifo calls).log,
      a.offset = a.ptr % plug.buffer_size ∧ a.offset < plug.buffer_size ∧ 1 ≤ a.frames ∧
      a.frames ≤ plug.buffer_size - a.offset ∧ a.offset + a.frames ≤ plug.buffer_size ∧
      a.count = a.frames * fifo.frame_bytes * plug.channels) := by
  refine ⟨read_loop_head w thr ep plug n fifo avail calls hC hav, ?_, ?_, ?_⟩
  · rw [fifo_write_loop_eq_read]
    exact read_loop_head w thr ep plug n fifo avail calls hC hav
  · exact read_loop_attempt_bounds w thr ep plug fifo.frame_bytes n fifo _ calls rfl
  · rw [fifo_write_eq_read_loop]
    exact read_loop_attempt_bounds w thr ep plug fifo.frame_bytes n fifo _ calls rfl

/-- C13 at a concrete input: capacity 4, position 7, five frames available, two bytes per
frame: the attempt uses offset 3 and asks for 1 frame, 2 bytes. -/
theorem contiguous_run_splitting_witness :
    ((fifo_read_loop 64 (2 ^ 30) (fun _ n => (n : Int)) ⟨0, 0, 4, 1⟩ (3 + 1)
        ⟨3, 1, 16000, 2, 2, 7⟩ 5 0).log.head?).map
        (fun a => (a.ptr, a.offset, a.frames, a.count))
      = some (7, 7 % 4, min 5 (4 - 7 % 4), min 5 (4 - 7 % 4) * 2 * 1) :=
  (contiguous_run_splitting 64 (2 ^ 30) (fun _ n => (n : Int)) ⟨0, 0, 4, 1⟩ 3
    ⟨3, 1, 16000, 2, 2, 7⟩ 5 0 (by decide) (by decide)).1

/-! ## C14: whole-frame truncation -/

theorem footprint_ptr_new (a b : Attempt) (h : a.footprint = b.footprint) :
    a.ptr_new = b.ptr_new ∧ a.frames = b.frames := by
  simp only [Attempt.footprint, Prod.mk.injEq] at h
  exact ⟨h.2.2.2.2.2, h.2.2.1⟩

/-- Two endpoints whose returns agree in sign and in whole frames drive an iteration
to the same requests and the same position. -/
theorem next_attempt_congr (thr : Int) (ep ep2 : Nat → Nat → Int) (plug : Ioplug)
    (fifo : Fifo) (avail calls : Nat)
    (hsame : ∀ i m, (0 < ep i m ↔ 0 < ep2 i m) ∧
      whole_frames (fifo.frame_bytes * plug.channels) (ep i m)
        = whole_frames (fifo.frame_bytes * plug.channels) (ep2 i m)) :
    (next_attempt thr ep plug fifo avail calls).footprint
      = (next_attempt thr ep2 plug fifo avail calls).footprint ∧
    (0 < (next_attempt thr ep plug fifo avail calls).ret
      ↔ 0 < (next_attempt thr ep2 plug fifo avail calls).ret) ∧
    whole_frames (fifo.frame_bytes * plug.channels)
        (next_attempt thr ep plug fifo avail calls).ret
      = whole_frames (fifo.frame_bytes * plug.channels)
        (next_attempt thr ep2 plug fifo avail calls).ret := by
  obtain ⟨h1, h2⟩ := hsame calls
    (chunk plug.buffer_size fifo.ptr avail * fifo.frame_bytes * plug.channels)
  refine ⟨?_, h1, h2⟩
  simp only [next_attempt, Attempt.footprint]
  unfold whole_frames at h2
  by_cases hp : 0 < ep calls
      (chunk plug.buffer_size fifo.ptr avail * fifo.frame_bytes * plug.channels)
  · have hp2 := h1.mp hp
    simp only [gt_iff_lt, hp, hp2, if_true] at h2 ⊢
    rw [h2]
  · have hp2 : ¬ 0 < ep2 calls
        (chunk plug.buffer_size fifo.ptr avail * fifo.frame_bytes * plug.channels) :=
      fun h => hp (h1.mpr h)
    simp only [gt_iff_lt, hp, hp2, if_false]

theorem read_loop_congr (w : Nat) (thr : Int) (ep ep2 : Nat → Nat → Int) (plug : Ioplug)
    (fb : Nat)
    (hsame : ∀ i m, (0 < ep i m ↔ 0 < ep2 i m) ∧
      whole_frames (fb * plug.channels) (ep i m) = whole_frames (fb * plug.channels) (ep2 i m))
    (n : Nat) : ∀ (fifo : Fifo) (avail calls : Nat), fifo.frame_bytes = fb →
    (fifo_read_loop w thr ep plug n fifo avail calls).fifo
      = (fifo_read_loop w thr ep2 plug n fifo avail calls).fifo ∧
    (fifo_read_loop w thr ep plug n fifo avail calls).exit
      = (fifo_read_loop w thr ep2 plug n fifo avail calls).exit ∧
    (fifo_read_loop w thr ep plug n fifo avail calls).log.map Attempt.footprint
      = (fifo_read_loop w thr ep2 plug n fifo avail calls).log.map Attempt.footprint := by
  induction n with
  | zero => intro fifo avail calls _; simp [fifo_read_loop]
  | succ n ih =>
    intro fifo avail calls hfb
    subst hfb
    obtain ⟨c1, c2, c3⟩ := next_attempt_congr thr ep ep2 plug fifo avail calls hsame
    obtain ⟨c4, c5⟩ := footprint_ptr_new _ _ c1
    rw [fifo_read_loop_succ, fifo_read_loop_succ]
    by_cases h0 : avail = 0
    · simp [h0]
    · by_cases hC : plug.buffer_size = 0
      · simp [h0, hC]
      · rw [if_neg h0, if_neg hC, if_neg h0, if_neg hC]
        by_cases hf : 0 < (next_attempt thr ep plug fifo avail calls).ret ∧
            fifo.frame_bytes * plug.channels = 0
        · rw [if_pos hf, if_pos ⟨c2.mp hf.1, hf.2⟩]
          simp only [Attempt.footprint, Prod.mk.injEq] at c1
          simp [Attempt.footprint, c1]
        · have hf2 : ¬ (0 < (next_attempt thr ep2 plug fifo avail calls).ret ∧
              fifo.frame_bytes * plug.channels = 0) := fun h => hf ⟨c2.mpr h.1, h.2⟩
          rw [if_neg hf, if_neg hf2, ← c3, ← c5, ← c4]
          by_cases hs : whole_frames (fifo.frame_bytes * plug.channels)
              (next_attempt thr ep plug fifo avail calls).ret
                < ((next_attempt thr ep plug fifo avail calls).frames : Int)
          · rw [if_pos hs, if_pos hs]
            simp [c1]
          · rw [if_neg hs, if_neg hs]
            obtain ⟨i1, i2, i3⟩ := ih
              { fifo with ptr := (next_attempt thr ep plug fifo avail calls).ptr_new }
              (to_uframes w ((avail : Int) - whole_frames (fifo.frame_bytes * plug.channels)
                (next_attempt thr ep plug fifo avail calls).ret)) (calls + 1) rfl
            simp [i1, i2, i3, c1]

theorem read_loop_attempt_update (w : Nat) (thr : Int) (ep : Nat → Nat → Int) (plug : Ioplug)
    (fb : Nat) (hfsz : 0 < fb * plug.channels) (n : Nat) :
    ∀ (fifo : Fifo) (avail calls : Nat), fifo.frame_bytes = fb →
    ∀ a ∈ (fifo_read_loop w thr ep plug n fifo avail calls).log,
      a.ptr_add = a.ptr + a.xfer (fb * plug.channels) ∧
      a.ptr_new = (if a.ret > 0 then guarded thr plug.buffer_size a.ptr_add else a.ptr) := by
  induction n with
  | zero => intro fifo avail calls _ a ha; simp [fifo_read_loop] at ha
  | succ n ih =>
    intro fifo avail calls hfb a ha
    subst hfb
    have hna : (next_attempt thr ep plug fifo avail calls).ptr_add
          = (next_attempt thr ep plug fifo avail calls).ptr
            + (next_attempt thr ep plug fifo avail calls).xfer
              (fifo.frame_bytes * plug.channels) ∧
        (next_attempt thr ep plug fifo avail calls).ptr_new
          = (if (next_attempt thr ep plug fifo avail calls).ret > 0
              then guarded thr plug.buffer_size
                (next_attempt thr ep plug fifo avail calls).ptr_add
              else (next_attempt thr ep plug fifo avail calls).ptr) := by
      simp only [next_attempt, Attempt.xfer]
      exact ⟨trivial, trivial⟩
    rw [fifo_read_loop_succ] at ha
    split_ifs at ha with h1 h2 h3 h4
    · simp at ha
    · simp at ha
    · omega
    · simp only [List.mem_singleton] at ha
      subst ha
      exact hna
    · simp only [List.mem_cons] at ha
      rcases ha with ha | ha
      · subst ha
        exact hna
      · exact ih { fifo with ptr := (next_attempt thr ep plug fifo avail calls).ptr_new }
          _ _ rfl a ha

/-- A positive return is truncated to whole frames; a return below one frame moves nothing
and is the last attempt of the invocation. -/
theorem read_loop_truncation (w : Nat) (thr : Int) (ep : Nat → Nat → Int) (plug : Ioplug)
    (n : Nat) (fifo : Fifo) (avail calls k : Nat) (a : Attempt)
    (hfsz : 0 < fifo.frame_bytes * plug.channels)
    (hk : (fifo_read_loop w thr ep plug n fifo avail calls).log[k]? = some a)
    (hret : 0 < a.ret) :
    a.ptr_add = a.ptr + (a.ret / ((fifo.frame_bytes * plug.channels : Nat) : Int)).toNat ∧
    a.ptr_new = (if (a.ptr_add : Int) > thr then a.ptr_add % plug.buffer_size
      else a.ptr_add) ∧
    (a.ret < ((fifo.frame_bytes * plug.channels : Nat) : Int) →
      a.ptr_add = a.ptr ∧
      (fifo_read_loop w thr ep plug n fifo avail calls).log.length = k + 1 ∧
      (fifo_read_loop w thr ep plug n fifo avail calls).exit = Exit.done) := by
  have hmem := List.getElem?_mem hk
  obtain ⟨u1, u2⟩ := read_loop_attempt_update w thr ep plug fifo.frame_bytes hfsz n fifo
    avail calls rfl a hmem
  obtain ⟨_, _, b3, _, _, _⟩ := read_loop_attempt_bounds w thr ep plug fifo.frame_bytes n fifo
    avail calls rfl a hmem
  have hx : a.xfer (fifo.frame_bytes * plug.channels)
      = (a.ret / ((fifo.frame_bytes * plug.channels : Nat) : Int)).toNat := by
    simp only [Attempt.xfer, gt_iff_lt, hret, if_true]
  rw [hx] at u1
  refine ⟨u1, ?_, ?_⟩
  · rw [u2, if_pos hret]
    rfl
  · intro hlt
    have hz : a.ret / ((fifo.frame_bytes * plug.channels : Nat) : Int) = 0 :=
      Int.ediv_eq_zero_of_lt (le_of_lt hret) hlt
    have hshort : whole_frames (fifo.frame_bytes * plug.channels) a.ret < (a.frames : Int) := by
      simp only [whole_frames, gt_iff_lt, hret, if_true, hz]
      omega
    obtain ⟨s1, _, s3⟩ := read_loop_short_stops w thr ep plug fifo.frame_bytes n fifo avail
      calls rfl k a hk hshort
    rw [hz] at u1
    exact ⟨by simpa using u1, s1, s3 hfsz⟩

/-- C14. Whole-frame truncation: with a positive frame size `frame_bytes * channels`,
when a `read`/`write` of `fifo_read` / `fifo_write` returns `b > 0` bytes, the position
advances by exactly `floor(b / (frame_bytes * channels))` frames before the overflow
guard (which then keeps or reduces that value); a positive `b` smaller than one frame
advances the position by 0 and ends the invocation; and the remaining
`b mod (frame_bytes * channels)` bytes reach no later state: two endpoints whose returns
agree in sign and in whole frames lead to the same final instance, the same exit and the
same requests and positions at every attempt. -/
theorem whole_frame_truncation (w : Nat) (thr : Int) (ep ep2 : Nat → Nat → Int) (fuel : Nat)
    (plug : Ioplug) (fifo : Fifo) (calls k : Nat) (a : Attempt)
    (hfsz : 0 < fifo.frame_bytes * plug.channels) :
    ((fifo_read w thr ep fuel plug fifo calls).log[k]? = some a → 0 < a.ret →
      a.ptr_add = a.ptr + (a.ret / ((fifo.frame_bytes * plug.channels : Nat) : Int)).toNat ∧
      a.ptr_new = (if (a.ptr_add : Int) > thr then a.ptr_add % plug.buffer_size
        else a.ptr_add) ∧
      (a.ret < ((fifo.frame_bytes * plug.channels : Nat) : Int) →
        a.ptr_add = a.ptr ∧
        (fifo_read w thr ep fuel plug fifo calls).log.length = k + 1 ∧
        (fifo_read w thr ep fuel plug fifo calls).exit = Exit.done)) ∧
    ((fifo_write w thr ep fuel plug fifo calls).log[k]? = some a → 0 < a.ret →
      a.ptr_add = a.ptr + (a.ret / ((fifo.frame_bytes * plug.channels : Nat) : Int)).toNat ∧
      a.ptr_new = (if (a.ptr_add : Int) > thr then a.ptr_add % plug.buffer_size
        else a.ptr_add) ∧
      (a.ret < ((fifo.frame_bytes * plug.channels : Nat) : Int) →
        a.ptr_add = a.ptr ∧
        (fifo_write w thr ep fuel plug fifo calls).log.length = k + 1 ∧
        (fifo_write w thr ep fuel plug fifo calls).exit = Exit.done)) ∧
    ((∀ i m, (0 < ep i m ↔ 0 < ep2 i m) ∧
        whole_frames (fifo.frame_bytes * plug.channels) (ep i m)
          = whole_frames (fifo.frame_bytes * plug.channels) (ep2 i m)) →
      ((fifo_read w thr ep fuel plug fifo calls).fifo
          = (fifo_read w thr ep2 fuel plug fifo calls).fifo ∧
        (fifo_read w thr ep fuel plug fifo calls).exit
          = (fifo_read w thr ep2 fuel plug fifo calls).exit ∧
        (fifo_read w thr ep fuel plug fifo calls).log.map Attempt.footprint
          = (fifo_read w thr ep2 fuel plug fifo calls).log.map Attempt.footprint) ∧
      ((fifo_write w thr ep fuel plug fifo calls).fifo
          = (fifo_write w thr ep2 fuel plug fifo calls).fifo ∧
        (fifo_write w thr ep fuel plug fifo calls).exit
          = (fifo_write w thr ep2 fuel plug fifo calls).exit ∧
        (fifo_write w thr ep fuel plug fifo calls).log.map Attempt.footprint
          = (fifo_write w thr ep2 fuel plug fifo calls).log.map Attempt.footprint)) := by
  refine ⟨?_, ?_, ?_⟩
  · intro hk hret
    exact read_loop_truncation w thr ep plug fuel fifo _ calls k a hfsz hk hret
  · intro hk hret
    rw [fifo_write_eq_read_loop] at hk ⊢
    exact read_loop_truncation w thr ep plug fuel fifo _ calls k a hfsz hk hret
  · intro hsame
    constructor
    · exact read_loop_congr w thr ep ep2 plug fifo.frame_bytes hsame fuel fifo _ calls rfl
    · rw [fifo_write_eq_read_loop, fifo_write_eq_read_loop]
      exact read_loop_congr w thr ep ep2 plug fifo.frame_bytes hsame fuel fifo _ calls rfl

/-- C14 at concrete inputs: capacity 4, two bytes per sample, two channels (4 bytes per
frame). A read returning 7 bytes advances the position by 1 frame, exactly as a read
returning 4 bytes does; a read returning 3 bytes advances it by 0 and ends the
invocation. -/
theorem whole_frame_truncation_witness :
    (⟨0, 0, 4, 16, 7, 1, 1⟩ : Attempt).ptr_add
      = (⟨0, 0, 4, 16, 7, 1, 1⟩ : Attempt).ptr + ((7 : Int) / ((2 * 2 : Nat) : Int)).toNat ∧
    ((fifo_read 64 (2 ^ 30) (fun _ _ => 3) 8 ⟨0, 0, 4, 2⟩ ⟨3, 2, 16000, 2, 2, 0⟩ 0).log.length
        = 0 + 1 ∧
      (fifo_read 64 (2 ^ 30) (fun _ _ => 3) 8 ⟨0, 0, 4, 2⟩ ⟨3, 2, 16000, 2, 2, 0⟩ 0).exit
        = Exit.done) ∧
    (fifo_read 64 (2 ^ 30) (fun _ _ => 7) 8 ⟨0, 0, 4, 2⟩ ⟨3, 2, 16000, 2, 2, 0⟩ 0).fifo
      = (fifo_read 64 (2 ^ 30) (fun _ _ => 4) 8 ⟨0, 0, 4, 2⟩ ⟨3, 2, 16000, 2, 2, 0⟩ 0).fifo :=
  ⟨((whole_frame_truncation 64 (2 ^ 30) (fun _ _ => 7) (fun _ _ => 4) 8 ⟨0, 0, 4, 2⟩
      ⟨3, 2, 16000, 2, 2, 0⟩ 0 0 ⟨0, 0, 4, 16, 7, 1, 1⟩ (by decide)).1
      (by decide) (by decide)).1,
   (((whole_frame_truncation 64 (2 ^ 30) (fun _ _ => 3) (fun _ _ => 3) 8 ⟨0, 0, 4, 2⟩
      ⟨3, 2, 16000, 2, 2, 0⟩ 0 0 ⟨0, 0, 4, 16, 3, 0, 0⟩ (by decide)).1
      (by decide) (by decide)).2.2 (by decide)).2,
   (((whole_frame_truncation 64 (2 ^ 30) (fun _ _ => 7) (fun _ _ => 4) 8 ⟨0, 0, 4, 2⟩
      ⟨3, 2, 16000, 2, 2, 0⟩ 0 0 ⟨0, 0, 4, 16, 7, 1, 1⟩ (by decide)).2.2
      (fun _ _ => by decide)).1).1⟩

/-! ## C15: bounded number of attempts -/

theorem div_step (avail cont C : Nat) (hcont : 0 < cont) (hle : cont ≤ C) (hlt : cont ≤ avail)
    (av2 : Nat) (hav2 : av2 ≤ avail - cont) : av2 / C + 1 ≤ avail / cont := by
  have h1 : av2 / C ≤ (avail - cont) / C := Nat.div_le_div_right hav2
  have h2 : (avail - cont) / C ≤ (avail - cont) / cont := Nat.div_le_div_left hle hcont
  have h3 : avail / cont = (avail - cont) / cont + 1 := by
    have : avail = (avail - cont) + cont := by omega
    conv_lhs => rw [this]
    exact Nat.add_div_right _ hcont
  omega

/-- Against an endpoint that returns at most the requested byte count, a loop entered with
`avail > 0` makes at most `avail / (C - ptr % C) + 1` attempts and has returned once it was
allowed that many iterations. -/
theorem read_loop_bounded (w : Nat) (thr : Int) (ep : Nat → Nat → Int) (plug : Ioplug)
    (hep : ∀ i n, ep i n ≤ (n : Int)) (hC : 0 < plug.buffer_size) (n : Nat) :
    ∀ (fifo : Fifo) (avail calls : Nat), 0 < avail →
    (fifo_read_loop w thr ep plug n fifo avail calls).log.length
      ≤ avail / (plug.buffer_size - fifo.ptr % plug.buffer_size) + 1 ∧
    (avail / (plug.buffer_size - fifo.ptr % plug.buffer_size) + 1 ≤ n →
      (fifo_read_loop w thr ep plug n fifo avail calls).exit = Exit.done) := by
  induction n with
  | zero =>
    intro fifo avail calls hav
    simp [fifo_read_loop]
  | succ n ih =>
    intro fifo avail calls hav
    obtain ⟨p1, p2, p3, p4⟩ := next_attempt_posix thr ep plug fifo avail calls hep
    have hmod := Nat.mod_lt fifo.ptr hC
    have hfr : (next_attempt thr ep plug fifo avail calls).frames
        = chunk plug.buffer_size fifo.ptr avail := rfl
    have hmin := chunk_eq_min plug.buffer_size fifo.ptr avail
    have hpos := chunk_pos plug.buffer_size fifo.ptr avail hC hav
    rw [fifo_read_loop_succ, if_neg (by omega), if_neg (by omega), if_neg p1]
    by_cases hs : whole_frames (fifo.frame_bytes * plug.channels)
        (next_attempt thr ep plug fifo avail calls).ret
          < ((next_attempt thr ep plug fifo avail calls).frames : Int)
    · rw [if_pos hs]
      simp
    · rw [if_neg hs]
      have hret : 0 < (next_attempt thr ep plug fifo avail calls).ret := by
        by_contra hneg
        apply hs
        have : whole_frames (fifo.frame_bytes * plug.channels)
            (next_attempt thr ep plug fifo avail calls).ret
            = (next_attempt thr ep plug fifo avail calls).ret := by
          simp [whole_frames, hneg]
        rw [this]
        omega
      have hw := p4 hret
      have hx : (next_attempt thr ep plug fifo avail calls).xfer
          (fifo.frame_bytes * plug.channels) = chunk plug.buffer_size fifo.ptr avail := by
        omega
      have hav2 : to_uframes w ((avail : Int) - whole_frames (fifo.frame_bytes * plug.channels)
          (next_attempt thr ep plug fifo avail calls).ret)
          ≤ avail - chunk plug.buffer_size fifo.ptr avail := by
        have := to_uframes_le w ((avail : Int) - whole_frames
          (fifo.frame_bytes * plug.channels)
          (next_attempt thr ep plug fifo avail calls).ret) (by omega)
        omega
      generalize to_uframes w ((avail : Int) - whole_frames (fifo.frame_bytes * plug.channels)
          (next_attempt thr ep plug fifo avail calls).ret) = av2 at hav2 ⊢
      by_cases hz : av2 = 0
      · subst hz
        rw [read_loop_avail_zero]
        simp
      · have hcont : chunk plug.buffer_size fifo.ptr avail
            = plug.buffer_size - fifo.ptr % plug.buffer_size := by omega
        have hnew := next_attempt_ptr_new_mod thr ep plug fifo avail calls
        rw [hx, hcont, wrap_point plug.buffer_size fifo.ptr hC] at hnew
        obtain ⟨i1, i2⟩ := ih
          { fifo with ptr := (next_attempt thr ep plug fifo avail calls).ptr_new }
          av2 (calls + 1) (by omega)
        simp only [hnew, Nat.sub_zero] at i1 i2
        have hd := div_step avail (plug.buffer_size - fifo.ptr % plug.buffer_size)
          plug.buffer_size (by omega) (by omega) (by omega) av2 (by omega)
        simp only [List.length_cons]
        refine ⟨by omega, fun hn => i2 (by omega)⟩

/-- C15. Bounded attempts: for every capacity `C > 0` and every endpoint returning at most
the requested byte count, one invocation of `fifo_read` / `fifo_write` entered with
`avail > 0` makes at most `floor(avail / contiguous_run) + 1` attempts, where `avail` and
`contiguous_run = C - (ptr mod C)` are the values at entry, and it has returned once it was
allowed that many iterations; entered with `avail = 0` it makes no attempt, returns and
leaves the instance unchanged. -/
theorem bounded_attempts (w : Nat) (thr : Int) (ep : Nat → Nat → Int) (fuel : Nat)
    (plug : Ioplug) (fifo : Fifo) (calls : Nat)
    (hep : ∀ i n, ep i n ≤ (n : Int)) (hC : 0 < plug.buffer_size) :
    (0 < fifo_read_avail w plug →
      (fifo_read w thr ep fuel plug fifo calls).log.length
        ≤ fifo_read_avail w plug / (plug.buffer_size - fifo.ptr % plug.buffer_size) + 1 ∧
      (fifo_read_avail w plug / (plug.buffer_size - fifo.ptr % plug.buffer_size) + 1 ≤ fuel →
        (fifo_read w thr ep fuel plug fifo calls).exit = Exit.done)) ∧
    (fifo_read_avail w plug = 0 →
      fifo_read w thr ep fuel plug fifo calls = ⟨fifo, [], Exit.done⟩) ∧
    (0 < fifo_write_avail w plug fifo →
      (fifo_write w thr ep fuel plug fifo calls).log.length
        ≤ fifo_write_avail w plug fifo
            / (plug.buffer_size - fifo.ptr % plug.buffer_size) + 1 ∧
      (fifo_write_avail w plug fifo
            / (plug.buffer_size - fifo.ptr % plug.buffer_size) + 1 ≤ fuel →
        (fifo_write w thr ep fuel plug fifo calls).exit = Exit.done)) ∧
    (fifo_write_avail w plug fifo = 0 →
      fifo_write w thr ep fuel plug fifo calls = ⟨fifo, [], Exit.done⟩) := by
  refine ⟨?_, ?_, ?_, ?_⟩
  · intro hav
    exact read_loop_bounded w thr ep plug hep hC fuel fifo _ calls hav
  · intro h0
    unfold fifo_read
    rw [h0, read_loop_avail_zero]
  · intro hav
    rw [fifo_write_eq_read_loop]
    exact read_loop_bounded w thr ep plug hep hC fuel fifo _ calls hav
  · intro h0
    rw [fifo_write_eq_read_loop, h0, read_loop_avail_zero]

/-- C15 at concrete inputs: capacity 4, position 3, application cursor 8 (five frames
pending, one before the wrap): at most `5 / 1 + 1` attempts and the call returns; with the
application cursor at the position nothing is attempted. -/
theorem bounded_attempts_witness :
    ((fifo_write 64 (2 ^ 30) (fun _ n => (n : Int)) 8 ⟨8, 0, 4, 1⟩
        ⟨3, 1, 16000, 2, 2, 3⟩ 0).log.length
      ≤ fifo_write_avail 64 ⟨8, 0, 4, 1⟩ ⟨3, 1, 16000, 2, 2, 3⟩ / (4 - 3 % 4) + 1 ∧
      (fifo_write 64 (2 ^ 30) (fun _ n => (n : Int)) 8 ⟨8, 0, 4, 1⟩
        ⟨3, 1, 16000, 2, 2, 3⟩ 0).exit = Exit.done) ∧
    fifo_write 64 (2 ^ 30) (fun _ n => (n : Int)) 8 ⟨3, 0, 4, 1⟩ ⟨3, 1, 16000, 2, 2, 3⟩ 0
      = ⟨⟨3, 1, 16000, 2, 2, 3⟩, [], Exit.done⟩ ∧
    (fifo_read 64 (2 ^ 30) (fun _ n => (n : Int)) 8 ⟨8, 8, 4, 1⟩
        ⟨3, 1, 16000, 2, 2, 3⟩ 0).log.length
      ≤ fifo_read_avail 64 ⟨8, 8, 4, 1⟩ / (4 - 3 % 4) + 1 :=
  have h := bounded_attempts 64 (2 ^ 30) (fun _ n => (n : Int)) 8 ⟨8, 0, 4, 1⟩
    ⟨3, 1, 16000, 2, 2, 3⟩ 0 (fun _ _ => le_refl _) (by decide)
  have g := bounded_attempts 64 (2 ^ 30) (fun _ n => (n : Int)) 8 ⟨3, 0, 4, 1⟩
    ⟨3, 1, 16000, 2, 2, 3⟩ 0 (fun _ _ => le_refl _) (by decide)
  have r := bounded_attempts 64 (2 ^ 30) (fun _ n => (n : Int)) 8 ⟨8, 8, 4, 1⟩
    ⟨3, 1, 16000, 2, 2, 3⟩ 0 (fun _ _ => le_refl _) (by decide)
  ⟨⟨(h.2.2.1 (by decide)).1, (h.2.2.1 (by decide)).2 (by decide)⟩, g.2.2.2 (by decide),
    (r.1 (by decide)).1⟩

/-! ## C16: range of the position counter -/

theorem guarded_range (thr : Int) (C p : Nat) (hC : 0 < C) :
    (guarded thr C p : Int) ≤ max thr ((C : Int) - 1) := by
  unfold guarded
  split_ifs with h
  · have := Nat.mod_lt p hC
    have h2 : ((p % C : Nat) : Int) ≤ (C : Int) - 1 := by omega
    exact le_trans h2 (le_max_right _ _)
  · exact le_trans (by omega) (le_max_left _ _)

theorem next_attempt_range (thr : Int) (ep : Nat → Nat → Int) (plug : Ioplug) (fifo : Fifo)
    (avail calls : Nat) (hC : 0 < plug.buffer_size)
    (hp : (fifo.ptr : Int) ≤ max thr ((plug.buffer_size : Int) - 1)) :
    ((next_attempt thr ep plug fifo avail calls).ptr_new : Int)
      ≤ max thr ((plug.buffer_size : Int) - 1) := by
  simp only [next_attempt]
  split_ifs
  · exact guarded_range thr _ _ hC
  · exact hp

/-- Range of the position inside one run, against an endpoint that returns at most the
requested byte count. -/
theorem read_loop_range (w : Nat) (thr : Int) (ep : Nat → Nat → Int) (plug : Ioplug)
    (hep : ∀ i n, ep i n ≤ (n : Int)) (hC : 0 < plug.buffer_size) (n : Nat) :
    ∀ (fifo : Fifo) (avail calls : Nat),
    (fifo.ptr : Int) ≤ max thr ((plug.buffer_size : Int) - 1) →
    ((fifo_read_loop w thr ep plug n fifo avail calls).fifo.ptr : Int)
      ≤ max thr ((plug.buffer_size : Int) - 1) ∧
    ∀ a ∈ (fifo_read_loop w thr ep plug n fifo avail calls).log,
      (a.ptr : Int) ≤ max thr ((plug.buffer_size : Int) - 1) ∧
      (a.ptr_new : Int) ≤ max thr ((plug.buffer_size : Int) - 1) ∧
      a.ptr_add ≤ a.ptr + plug.buffer_size := by
  induction n with
  | zero =>
    intro fifo avail calls hp
    simp [fifo_read_loop, hp]
  | succ n ih =>
    intro fifo avail calls hp
    obtain ⟨p1, _, p3, _⟩ := next_attempt_posix thr ep plug fifo avail calls hep
    obtain ⟨_, q2, q3⟩ := next_attempt_ptr_new_le thr ep plug fifo avail calls
    have hcont := chunk_le_cont plug.buffer_size fifo.ptr avail
    have hnew := next_attempt_range thr ep plug fifo avail calls hC hp
    have hatt : ((next_attempt thr ep plug fifo avail calls).ptr : Int)
          ≤ max thr ((plug.buffer_size : Int) - 1) ∧
        ((next_attempt thr ep plug fifo avail calls).ptr_new : Int)
          ≤ max thr ((plug.buffer_size : Int) - 1) ∧
        (next_attempt thr ep plug fifo avail calls).ptr_add
          ≤ (next_attempt thr ep plug fifo avail calls).ptr + plug.buffer_size := by
      have hptr : (next_attempt thr ep plug fifo avail calls).ptr = fifo.ptr := rfl
      refine ⟨by rw [hptr]; exact hp, hnew, ?_⟩
      rw [hptr]
      omega
    rw [fifo_read_loop_succ]
    split_ifs with h1 h2 h4
    · simp [hp]
    · simp [hp]
    · simp only [List.mem_singleton, forall_eq]
      exact ⟨hnew, hatt⟩
    · obtain ⟨i1, i2⟩ := ih
        { fifo with ptr := (next_attempt thr ep plug fifo avail calls).ptr_new }
        (to_uframes w ((avail : Int) - whole_frames (fifo.frame_bytes * plug.channels)
          (next_attempt thr ep plug fifo avail calls).ret)) (calls + 1) hnew
      simp only [List.mem_cons, forall_eq_or_imp]
      exact ⟨i1, hatt, i2⟩

theorem callback_range (w : Nat) (thr : Int) (ep : Nat → Nat → Int) (C ch : Nat)
    (hep : ∀ i n, ep i n ≤ (n : Int)) (hC : 0 < C) (c : Callback) (d : Dev)
    (h1 : (d.fifo.ptr : Int) ≤ max thr ((C : Int) - 1))
    (h2 : ∀ a ∈ d.trace, (a.ptr : Int) ≤ max thr ((C : Int) - 1) ∧
      (a.ptr_new : Int) ≤ max thr ((C : Int) - 1) ∧ a.ptr_add ≤ a.ptr + C) :
    ((callback w thr ep C ch c d).fifo.ptr : Int) ≤ max thr ((C : Int) - 1) ∧
    ∀ a ∈ (callback w thr ep C ch c d).trace, (a.ptr : Int) ≤ max thr ((C : Int) - 1) ∧
      (a.ptr_new : Int) ≤ max thr ((C : Int) - 1) ∧ a.ptr_add ≤ a.ptr + C := by
  cases c with
  | poll v =>
    obtain ⟨avail, hinv⟩ := invoke_eq_loop w thr ep C ch v d
    obtain ⟨r1, r2⟩ := read_loop_range w thr ep ⟨v.appl_ptr, v.hw_ptr, C, ch⟩ hep hC v.fuel
      d.fifo avail d.calls h1
    simp only [callback]
    rw [hinv]
    refine ⟨r1, ?_⟩
    intro a ha
    simp only [Dev.trace, List.flatten_append, List.flatten_singleton, List.mem_append] at ha
    rcases ha with ha | ha
    · exact h2 a ha
    · exact r2 a ha
  | stop => exact ⟨h1, h2⟩
  | pointer => exact ⟨h1, h2⟩

theorem callbacks_range (w : Nat) (thr : Int) (ep : Nat → Nat → Int) (C ch : Nat)
    (hep : ∀ i n, ep i n ≤ (n : Int)) (hC : 0 < C) (cs : List Callback) : ∀ (d : Dev),
    (d.fifo.ptr : Int) ≤ max thr ((C : Int) - 1) →
    (∀ a ∈ d.trace, (a.ptr : Int) ≤ max thr ((C : Int) - 1) ∧
      (a.ptr_new : Int) ≤ max thr ((C : Int) - 1) ∧ a.ptr_add ≤ a.ptr + C) →
    ((callbacks w thr ep C ch cs d).fifo.ptr : Int) ≤ max thr ((C : Int) - 1) ∧
    ∀ a ∈ (callbacks w thr ep C ch cs d).trace, (a.ptr : Int) ≤ max thr ((C : Int) - 1) ∧
      (a.ptr_new : Int) ≤ max thr ((C : Int) - 1) ∧ a.ptr_add ≤ a.ptr + C := by
  induction cs with
  | nil => intro d h1 h2; exact ⟨h1, h2⟩
  | cons c cs ih =>
    intro d h1 h2
    obtain ⟨g1, g2⟩ := callback_range w thr ep C ch hep hC c d h1 h2
    simp only [callbacks]
    split_ifs
    · exact ih _ g1 g2
    · exact ⟨g1, g2⟩

/-- C16. Position counter range: in every state reachable from `fifo_start` by any
sequence of readiness-handler (`fifo_read` / `fifo_write`), `fifo_stop` and `fifo_pointer`
invocations, with a capacity `C > 0` and endpoint results not exceeding the requested byte
count, the position counter is non-negative and at most `max(thr, C - 1)` for the value
`thr` of the guard constant, and so was it before and after every attempt, and no addition
to it added more than `C`. Hence, when the guard value is at most one quarter of the
counter's range (`2 ^ (w - 2)`), the counter is at most `max(2 ^ (w - 2), C - 1)`; and when
moreover `C` is below that quarter, the counter never exceeds `2 ^ (w - 2)` and every sum
`ptr + result` stays below `2 ^ (w - 1)`: the addition never wraps the signed
representation. -/
theorem position_counter_range (w : Nat) (thr : Int) (ep : Nat → Nat → Int) (C ch : Nat)
    (fifo : Fifo) (calls : Nat) (cs : List Callback)
    (hep : ∀ i n, ep i n ≤ (n : Int)) (hC : 0 < C) :
    0 ≤ fifo_pointer (callbacks w thr ep C ch cs (started fifo calls)).fifo ∧
    fifo_pointer (callbacks w thr ep C ch cs (started fifo calls)).fifo
      ≤ max thr ((C : Int) - 1) ∧
    (∀ a ∈ (callbacks w thr ep C ch cs (started fifo calls)).trace,
      (a.ptr : Int) ≤ max thr ((C : Int) - 1) ∧
      (a.ptr_new : Int) ≤ max thr ((C : Int) - 1) ∧ a.ptr_add ≤ a.ptr + C) ∧
    (thr ≤ 2 ^ (w - 2) →
      fifo_pointer (callbacks w thr ep C ch cs (started fifo calls)).fifo
        ≤ max (2 ^ (w - 2)) ((C : Int) - 1) ∧
      ((C : Int) < 2 ^ (w - 2) →
        fifo_pointer (callbacks w thr ep C ch cs (started fifo calls)).fifo ≤ 2 ^ (w - 2) ∧
        ∀ a ∈ (callbacks w thr ep C ch cs (started fifo calls)).trace,
          (a.ptr_add : Int) < 2 ^ (w - 1))) := by
  obtain ⟨g1, g2⟩ := callbacks_range w thr ep C ch hep hC cs (started fifo calls)
    (by
      have : (0 : Int) ≤ (C : Int) - 1 := by omega
      simp only [started, fifo_start, Nat.cast_zero]
      exact le_trans this (le_max_right _ _))
    (by intro a ha; simp [started, Dev.trace] at ha)
  refine ⟨by simp [fifo_pointer], g1, g2, ?_⟩
  intro hthr
  refine ⟨le_trans g1 (max_le_max hthr (le_refl _)), ?_⟩
  intro hcap
  have hmax : max thr ((C : Int) - 1) ≤ 2 ^ (w - 2) := max_le hthr (by omega)
  have hw : 2 ≤ w := by
    by_contra hlt
    have h0 : w - 2 = 0 := by omega
    rw [h0] at hcap
    simp only [pow_zero] at hcap
    omega
  have hpow : (2 : Int) ^ (w - 1) = 2 * 2 ^ (w - 2) := by
    have : w - 1 = (w - 2) + 1 := by omega
    rw [this, pow_succ]
    ring
  refine ⟨le_trans g1 hmax, ?_⟩
  intro a ha
  obtain ⟨a1, _, a3⟩ := g2 a ha
  rw [hpow]
  have : (a.ptr_add : Int) ≤ (a.ptr : Int) + (C : Int) := by exact_mod_cast a3
  have := le_trans a1 hmax
  omega

/-- C16 at a concrete input: a 32-bit counter with guard value `2 ^ 30`, capacity 4, a
capture call, a stop, a pointer query and another capture call, against an endpoint that
delivers everything asked for. -/
theorem position_counter_range_witness :
    fifo_pointer (callbacks 32 (2 ^ 30) (fun _ n => (n : Int)) 4 1
        [Callback.poll ⟨false, 0, 0, 8⟩, Callback.stop, Callback.pointer,
          Callback.poll ⟨false, 0, 0, 8⟩] (started ⟨3, 1, 16000, 2, 2, 9⟩ 0)).fifo
      ≤ 2 ^ (32 - 2) ∧
    ∀ a ∈ (callbacks 32 (2 ^ 30) (fun _ n => (n : Int)) 4 1
        [Callback.poll ⟨false, 0, 0, 8⟩, Callback.stop, Callback.pointer,
          Callback.poll ⟨false, 0, 0, 8⟩] (started ⟨3, 1, 16000, 2, 2, 9⟩ 0)).trace,
      (a.ptr_add : Int) < 2 ^ (32 - 1) :=
  ((position_counter_range 32 (2 ^ 30) (fun _ n => (n : Int)) 4 1 ⟨3, 1, 16000, 2, 2, 9⟩ 0
    [Callback.poll ⟨false, 0, 0, 8⟩, Callback.stop, Callback.pointer,
      Callback.poll ⟨false, 0, 0, 8⟩] (fun _ _ => le_refl _) (by decide)).2.2.2
    (le_refl _)).2 (by decide)

/-! ## C17: the two directions run the same loop -/

/-- C17. Direction symmetry: entered with the same capacity, frame size, channel count,
position and value of `avail`, and given the same endpoint return values, the loops of
`fifo_write` and `fifo_read` produce the same run: the same sequence of (offset, chunk)
requests and the same final position counter. `fifo_read` and `fifo_write` are these
loops entered with `avail = appl_ptr - hw_ptr + buffer_size` and `avail = appl_ptr - ptr`
respectively, so they differ only in that entry value (and in the I/O primitive behind the
endpoint): whenever the two entry values coincide, the two functions produce the same
run. -/
theorem direction_symmetry (w : Nat) (thr : Int) (ep : Nat → Nat → Int) (plug : Ioplug)
    (fuel : Nat) (fifo : Fifo) (avail calls : Nat) :
    fifo_write_loop w thr ep plug fuel fifo avail calls
      = fifo_read_loop w thr ep plug fuel fifo avail calls ∧
    (fifo_write_loop w thr ep plug fuel fifo avail calls).log.map
        (fun a => (a.offset, a.frames))
      = (fifo_read_loop w thr ep plug fuel fifo avail calls).log.map
        (fun a => (a.offset, a.frames)) ∧
    (fifo_write_loop w thr ep plug fuel fifo avail calls).fifo.ptr
      = (fifo_read_loop w thr ep plug fuel fifo avail calls).fifo.ptr ∧
    fifo_read w thr ep fuel plug fifo calls
      = fifo_read_loop w thr ep plug fuel fifo (fifo_read_avail w plug) calls ∧
    fifo_write w thr ep fuel plug fifo calls
      = fifo_write_loop w thr ep plug fuel fifo (fifo_write_avail w plug fifo) calls ∧
    (fifo_read_avail w plug = fifo_write_avail w plug fifo →
      fifo_read w thr ep fuel plug fifo calls = fifo_write w thr ep fuel plug fifo calls) := by
  have h := fifo_write_loop_eq_read w thr ep plug fuel fifo avail calls
  refine ⟨h, by rw [h], by rw [h], rfl, rfl, ?_⟩
  intro hav
  rw [fifo_write_eq_read_loop, ← hav]
  rfl

/-- C17 at a concrete input: capacity 4, application cursor 6, hardware cursor 5 and
position 1, so that both directions enter with five frames; a short endpoint. -/
theorem direction_symmetry_witness :
    fifo_read 64 (2 ^ 30) (fun i n => if i = 0 then (n : Int) else 2) 8 ⟨6, 5, 4, 1⟩
        ⟨3, 1, 16000, 2, 2, 1⟩ 0
      = fifo_write 64 (2 ^ 30) (fun i n => if i = 0 then (n : Int) else 2) 8 ⟨6, 5, 4, 1⟩
        ⟨3, 1, 16000, 2, 2, 1⟩ 0 :=
  (direction_symmetry 64 (2 ^ 30) (fun i n => if i = 0 then (n : Int) else 2) ⟨6, 5, 4, 1⟩ 8
    ⟨3, 1, 16000, 2, 2, 1⟩ 5 0).2.2.2.2.2 (by decide)

/-! ## C18: the playback backlog stays within one buffer -/

/-- As long as the advanced position cannot exceed the guard value, a run against an
endpoint that returns at most the requested byte count moves the position forward by
exactly the frames it transferred. -/
theorem read_loop_no_guard (w : Nat) (thr : Int) (ep : Nat → Nat → Int) (plug : Ioplug)
    (hep : ∀ i n, ep i n ≤ (n : Int)) (n : Nat) : ∀ (fifo : Fifo) (avail calls : Nat),
    ((fifo.ptr + avail : Nat) : Int) ≤ thr →
    (fifo_read_loop w thr ep plug n fifo avail calls).fifo.ptr
      = fifo.ptr + moved (fifo.frame_bytes * plug.channels)
          (fifo_read_loop w thr ep plug n fifo avail calls).log := by
  induction n with
  | zero => intro fifo avail calls _; simp [fifo_read_loop, moved_nil]
  | succ n ih =>
    intro fifo avail calls hthr
    obtain ⟨p1, p2, p3, p4⟩ := next_attempt_posix thr ep plug fifo avail calls hep
    have hfa := chunk_le_avail plug.buffer_size fifo.ptr avail
    have hfr : (next_attempt thr ep plug fifo avail calls).frames
        = chunk plug.buffer_size fifo.ptr avail := rfl
    have hnew : (next_attempt thr ep plug fifo avail calls).ptr_new
        = fifo.ptr + (next_attempt thr ep plug fifo avail calls).xfer
            (fifo.frame_bytes * plug.channels) := by
      have hx := p3
      rw [hfr] at hx
      simp only [next_attempt, Attempt.xfer] at hx ⊢
      generalize (ep calls (chunk plug.buffer_size fifo.ptr avail * fifo.frame_bytes
        * plug.channels) / ((fifo.frame_bytes * plug.channels : Nat) : Int)).toNat = q at hx ⊢
      split_ifs with hr
      · rw [if_pos hr] at hx
        unfold guarded
        rw [if_neg (by omega)]
      · rfl
    rw [fifo_read_loop_succ]
    split_ifs with h1 h2 h4
    · simp [moved_nil]
    · simp [moved_nil]
    · simp only [moved_cons, moved_nil, Nat.add_zero]
      exact hnew
    · have hC : 0 < plug.buffer_size := Nat.pos_of_ne_zero h2
      have hpos := chunk_pos plug.buffer_size fifo.ptr avail hC (Nat.pos_of_ne_zero h1)
      have hret : 0 < (next_attempt thr ep plug fifo avail calls).ret := by
        by_contra hneg
        apply h4
        have : whole_frames (fifo.frame_bytes * plug.channels)
            (next_attempt thr ep plug fifo avail calls).ret
            = (next_attempt thr ep plug fifo avail calls).ret := by
          simp [whole_frames, hneg]
        rw [this]
        omega
      have hw := p4 hret
      have hav : to_uframes w ((avail : Int) - whole_frames (fifo.frame_bytes * plug.channels)
          (next_attempt thr ep plug fifo avail calls).ret)
          ≤ avail - (next_attempt thr ep plug fifo avail calls).frames := by
        have := to_uframes_le w ((avail : Int) - whole_frames
          (fifo.frame_bytes * plug.channels)
          (next_attempt thr ep plug fifo avail calls).ret) (by omega)
        omega
      have := ih
        { fifo with ptr := (next_attempt thr ep plug fifo avail calls).ptr_new }
        (to_uframes w ((avail : Int) - whole_frames (fifo.frame_bytes * plug.channels)
          (next_attempt thr ep plug fifo avail calls).ret)) (calls + 1)
        (by simp only; push_cast at hthr ⊢; omega)
      simp only at this
      simp only [moved_cons]
      rw [this, hnew]
      omega

/-- C18 as stated fails: with guard value `2 ^ 30`, capacity 1024, position `2 ^ 30 - 1` and
application cursor `2 ^ 30 + 1` the backlog is 2 frames at entry; the endpoint accepts
everything, the second attempt pushes the position past the guard value, the guard
reduces it to 1, and the backlog after the call is `2 ^ 30` frames. -/
theorem playback_backlog_counterexample :
    2 ^ 30 - 1 ≤ 2 ^ 30 + 1 ∧ (2 ^ 30 + 1) - (2 ^ 30 - 1) ≤ 1024 ∧
    (fifo_write 32 (2 ^ 30) (fun _ n => (n : Int)) 8 ⟨2 ^ 30 + 1, 0, 1024, 1⟩
      ⟨3, 1, 16000, 2, 2, 2 ^ 30 - 1⟩ 0).fifo.ptr = 1 ∧
    ¬ ((2 ^ 30 + 1) - (fifo_write 32 (2 ^ 30) (fun _ n => (n : Int)) 8
      ⟨2 ^ 30 + 1, 0, 1024, 1⟩ ⟨3, 1, 16000, 2, 2, 2 ^ 30 - 1⟩ 0).fifo.ptr ≤ 1024) := by
  refine ⟨by decide, by decide, by decide, by decide⟩

/-- C18, amended. Playback backlog bound is preserved: for every state with
`0 <= appl_ptr - ptr <= C` at entry, an application cursor not above the guard value, and
every endpoint returning at most the requested byte count, the state after `fifo_write`
again satisfies `0 <= appl_ptr - ptr <= C` (the call does not touch the application
cursor): the position has moved forward by the frames transferred and not past the
application cursor. -/
theorem playback_backlog_preserved (w : Nat) (thr : Int) (ep : Nat → Nat → Int) (fuel : Nat)
    (plug : Ioplug) (fifo : Fifo) (calls : Nat)
    (hep : ∀ i n, ep i n ≤ (n : Int))
    (h1 : fifo.ptr ≤ plug.appl_ptr) (h2 : plug.appl_ptr ≤ fifo.ptr + plug.buffer_size)
    (hthr : (plug.appl_ptr : Int) ≤ thr) :
    (fifo_write w thr ep fuel plug fifo calls).fifo.ptr ≤ plug.appl_ptr ∧
    plug.appl_ptr ≤ (fifo_write w thr ep fuel plug fifo calls).fifo.ptr + plug.buffer_size ∧
    (fifo_write w thr ep fuel plug fifo calls).fifo.ptr
      = fifo.ptr + moved (fifo.frame_bytes * plug.channels)
          (fifo_write w thr ep fuel plug fifo calls).log ∧
    fifo_write_avail w plug
      (fifo_write w thr ep fuel plug fifo calls).fifo ≤ plug.buffer_size := by
  have hav : fifo_write_avail w plug fifo ≤ plug.appl_ptr - fifo.ptr := by
    unfold fifo_write_avail
    have := to_uframes_le w ((plug.appl_ptr : Int) - (fifo.ptr : Int)) (by omega)
    omega
  rw [fifo_write_eq_read_loop]
  obtain ⟨_, l2, _, _, _⟩ := read_loop_posix w thr ep plug hep fuel fifo
    (fifo_write_avail w plug fifo) calls
  have hng := read_loop_no_guard w thr ep plug hep fuel fifo (fifo_write_avail w plug fifo)
    calls (by push_cast; omega)
  have hP1 : (fifo_read_loop w thr ep plug fuel fifo (fifo_write_avail w plug fifo)
      calls).fifo.ptr ≤ plug.appl_ptr := by omega
  have hP2 : plug.appl_ptr ≤ (fifo_read_loop w thr ep plug fuel fifo
      (fifo_write_avail w plug fifo) calls).fifo.ptr + plug.buffer_size := by omega
  refine ⟨hP1, hP2, hng, ?_⟩
  generalize (fifo_read_loop w thr ep plug fuel fifo (fifo_write_avail w plug fifo)
      calls).fifo = f2 at hP1 hP2 ⊢
  unfold fifo_write_avail
  have := to_uframes_le w ((plug.appl_ptr : Int) - (f2.ptr : Int)) (by omega)
  omega

/-- C18 (amended) at a concrete input: capacity 4, position 3, application cursor 6,
guard value `2 ^ 30`, an endpoint that accepts one frame per call. -/
theorem playback_backlog_preserved_witness :
    (fifo_write 32 (2 ^ 30) (fun _ n => min (n : Int) 2) 8 ⟨6, 0, 4, 1⟩
        ⟨3, 1, 16000, 2, 2, 3⟩ 0).fifo.ptr ≤ 6 ∧
    6 ≤ (fifo_write 32 (2 ^ 30) (fun _ n => min (n : Int) 2) 8 ⟨6, 0, 4, 1⟩
        ⟨3, 1, 16000, 2, 2, 3⟩ 0).fifo.ptr + 4 :=
  have h := playback_backlog_preserved 32 (2 ^ 30) (fun _ n => min (n : Int) 2) 8 ⟨6, 0, 4, 1⟩
    ⟨3, 1, 16000, 2, 2, 3⟩ 0 (fun _ _ => min_le_left _ _) (by decide) (by decide) (by decide)
  ⟨h.1, h.2.1⟩

end PcmFifo
